import Mathlib

/-!
Shallow embedding of the DuckDB transformation component's core:
the block-based query orchestrator (`src/query_orchestrator.py`) and the
SQL parsing helpers (`src/sql_parser.py`).

Python `dict`s are modelled as association lists with Python's
update-in-place-or-append semantics; Python `set[str]` values are modelled
as `List String` built with duplicate-avoiding insertion (Python sets hold
each element once; iteration order of a set is irrelevant to every result
proved here, as only membership and multiplicity of derived edges matter).
The catalog's documented invariant that query names are unique makes the
`dict`-keyed-by-name state of the source coincide with the plain lists used
here; theorems that need it carry the corresponding `Nodup` hypothesis.
-/

namespace DuckTf

/-- Does the character list start with `pat`? (helper for Python's `in`). -/
def charsStartWith : List Char → List Char → Bool
  | _, [] => true
  | [], _ :: _ => false
  | c :: cs, p :: ps => c == p && charsStartWith cs ps

/-- Python's substring test `pat in s` at the character-list level. -/
def charsContain (pat : List Char) : List Char → Bool
  | [] => charsStartWith [] pat
  | c :: cs => charsStartWith (c :: cs) pat || charsContain pat cs

/-- Python's substring test `pat in s` on strings. -/
def strContains (s pat : String) : Bool :=
  charsContain pat.data s.data

/-- Python's `sep.join(items)`. -/
def pyJoin (sep : String) : List String → String
  | [] => ""
  | [x] => x
  | x :: y :: rest => x ++ sep ++ pyJoin sep (y :: rest)

/-- `Query` dataclass of `query_orchestrator.py`. -/
structure Query where
  name : String
  sql : String
  dependencies : List String
  outputs : List String
  block_name : String
  code_name : String
  deriving DecidableEq

/-- `Batch` dataclass: a batch of queries that can be executed in parallel. -/
structure Batch where
  queries : List Query
  deriving DecidableEq

/-- `Block` dataclass: a named block of sequential batches. -/
structure Block where
  name : String
  batches : List Batch
  deriving DecidableEq

/-- `ExecutionPlan` dataclass: blocks executed consecutively. -/
structure ExecutionPlan where
  blocks : List Block
  deriving DecidableEq

/-- Python dict update: replace the value of an existing key in place,
otherwise append the new binding at the end. -/
def dUpdate {α : Type} : List (String × α) → String → α → List (String × α)
  | [], k, v => [(k, v)]
  | p :: rest, k, v =>
    if p.1 = k then (k, v) :: rest else p :: dUpdate rest k v

/-- Python dict lookup (`d.get(k)`), first binding wins. -/
def dGet? {α : Type} : List (String × α) → String → Option α
  | [], _ => none
  | p :: rest, k => if p.1 = k then some p.2 else dGet? rest k

/-- Python's `s.upper()`, character by character (SQL keyword detection only
ever involves ASCII). -/
def pyUpper (s : String) : String :=
  ⟨s.data.map Char.toUpper⟩

/-- `'CREATE' in query.sql.upper()` (`query_orchestrator.py`, lines 115/235). -/
def hasCREATE (q : Query) : Bool :=
  strContains (pyUpper q.sql) "CREATE"

/-- `'INSERT' in query.sql.upper()` (`query_orchestrator.py`, lines 122/237). -/
def hasINSERT (q : Query) : Bool :=
  strContains (pyUpper q.sql) "INSERT"

/-- `table_creators` map of `_create_parallel_batches_for_block`
(lines 113–117): output table → CREATE query of this block, last one wins. -/
def tableCreators (blockQueries : List Query) : List (String × Query) :=
  blockQueries.foldl
    (fun tc q =>
      if hasCREATE q then q.outputs.foldl (fun tc out => dUpdate tc out q) tc
      else tc)
    []

/-- Explicit INSERT-after-CREATE precedence edges contributed by one query
(lines 121–128). -/
def insertPrecedenceEdgesFor (tc : List (String × Query)) (q : Query) :
    List (String × String) :=
  if hasINSERT q then
    q.outputs.filterMap (fun out => (dGet? tc out).map (fun c => (c.name, q.name)))
  else []

/-- Dependency edges contributed by one query: an edge from the retained
producer of a dependency table, only when that producer's name belongs to
this block (lines 130–137). -/
def depEdgesFor (producers : List (String × Query)) (blockNames : List String)
    (q : Query) : List (String × String) :=
  q.dependencies.filterMap (fun dep =>
    match dGet? producers dep with
    | some p => if blockNames.contains p.name then some (p.name, q.name) else none
    | none => none)

/-- The block-local dependency multigraph, as the list of its edges in the
order the source inserts them (lines 112–137). -/
def localEdges (blockQueries : List Query) (producers : List (String × Query)) :
    List (String × String) :=
  let tc := tableCreators blockQueries
  let names := blockQueries.map (·.name)
  blockQueries.flatMap (fun q => insertPrecedenceEdgesFor tc q ++ depEdgesFor producers names q)

/-- Add `v` to the value stored under key `k` (Python `d[k] += v`;
no effect when the key is absent, mirroring the guarded decrement). -/
def bump (d : List (String × Int)) (k : String) (v : Int) : List (String × Int) :=
  d.map (fun p => if p.1 = k then (p.1, p.2 + v) else p)

/-- `local_in_degree`: every block query starts at 0, then one increment per
edge pointing at it (lines 110, 128, 137). -/
def initDegs (blockQueries : List Query) (edges : List (String × String)) :
    List (String × Int) :=
  edges.foldl (fun d e => bump d e.2 1)
    (blockQueries.map (fun q => (q.name, (0 : Int))))

/-- One round of in-degree decrements: for every edge whose source was just
placed, decrement the target (lines 155–159). -/
def decEdges (edges : List (String × String)) (readyNames : List String)
    (degs : List (String × Int)) : List (String × Int) :=
  edges.foldl (fun d e => if readyNames.contains e.1 then bump d e.2 (-1) else d) degs

/-- Read an in-degree counter (0 when absent; the source never reads a
missing key). -/
def lookupInt (d : List (String × Int)) (k : String) : Int :=
  match d.find? (fun p => p.1 == k) with
  | some p => p.2
  | none => 0

/-- Message of the `UserException` raised on a circular dependency
(lines 149–152). -/
def circularMsg (remaining : List Query) : String :=
  "Circular dependency detected among queries in block: " ++
    pyJoin ", " (remaining.map (·.name)) ++ ". Check your SQL dependencies."

/-- `ready = [remaining[name] for name in remaining if local_in_degree[name] == 0]`
(line 140), in the insertion order of `remaining`. -/
def readyOf (degs : List (String × Int)) (rem : List Query) : List Query :=
  rem.filter (fun r => lookupInt degs r.name == 0)

/-- `del remaining[query.name] for query in ready` (lines 155–156). -/
def removeReady (readyNames : List String) (rem : List Query) : List Query :=
  rem.filter (fun r => !(readyNames.contains r.name))

/-- The `while remaining:` topological-batching loop of
`_create_parallel_batches_for_block` (lines 138–160).  The loop removes at
least one query per iteration, so `remaining.length` rounds of fuel always
suffice and the fuel-exhaustion branch is unreachable from the entry point
below. -/
def kahnLoop (edges : List (String × String)) :
    Nat → List Query → List (String × Int) → Except String (List Batch)
  | _, [], _ => .ok []
  | 0, q :: rest, _ => .error (circularMsg (q :: rest))
  | fuel + 1, q :: rest, degs =>
    let ready := readyOf degs (q :: rest)
    if ready.isEmpty then .error (circularMsg (q :: rest))
    else
      match kahnLoop edges fuel (removeReady (ready.map (·.name)) (q :: rest))
          (decEdges edges (ready.map (·.name)) degs) with
      | .error e => .error e
      | .ok bs => .ok (⟨ready⟩ :: bs)

/-- `_create_parallel_batches_for_block` (lines 101–160). -/
def create_parallel_batches_for_block (blockQueries : List Query)
    (producers : List (String × Query)) : Except String (List Batch) :=
  let edges := localEdges blockQueries producers
  kahnLoop edges blockQueries.length blockQueries (initDegs blockQueries edges)

/-- The stream of `(output table, query)` assignments performed by the
producer-building loop, in catalog order (lines 232–239). -/
def outputEvents (qs : List Query) : List (String × Query) :=
  qs.flatMap (fun q => q.outputs.map (fun t => (t, q)))

/-- Apply a stream of dict assignments in order. -/
def applyUpd {α : Type} (d : List (String × α)) (us : List (String × α)) :
    List (String × α) :=
  us.foldl (fun d u => dUpdate d u.1 u.2) d

/-- `create_producers` (line 235–236): outputs of queries whose SQL contains
`CREATE`. -/
def create_producers (qs : List Query) : List (String × Query) :=
  applyUpd [] (outputEvents (qs.filter hasCREATE))

/-- `insert_producers` (line 237–238): outputs of queries whose SQL contains
`INSERT` but not `CREATE` (the source's `elif`). -/
def insert_producers (qs : List Query) : List (String × Query) :=
  applyUpd [] (outputEvents (qs.filter (fun q => !hasCREATE q && hasINSERT q)))

/-- The unconditional `producers[output] = query` assignments (line 239). -/
def producersAll (qs : List Query) : List (String × Query) :=
  applyUpd [] (outputEvents qs)

/-- The global producer map after the INSERT override loop (lines 244–245). -/
def buildProducers (qs : List Query) : List (String × Query) :=
  applyUpd (producersAll qs) (insert_producers qs)

/-- The distinct block names in first-seen order (Python `defaultdict`
key order, lines 222–224). -/
def firstSeen : List String → List String
  | [] => []
  | x :: xs => x :: (firstSeen xs).filter (fun y => y ≠ x)

/-- Group the catalog by block name: first-seen block order, each block's
queries in catalog order (lines 222–224). -/
def groupByBlock (qs : List Query) : List (String × List Query) :=
  (firstSeen (qs.map (·.block_name))).map
    (fun bn => (bn, qs.filter (fun q => q.block_name == bn)))

/-- `Except`-valued `mapM` that stops at the first error, mirroring the
exception propagation of the block loop (lines 257–262). -/
def exMapM {α β : Type} (f : α → Except String β) : List α → Except String (List β)
  | [] => .ok []
  | a :: as =>
    match f a with
    | .error e => .error e
    | .ok b =>
      match exMapM f as with
      | .error e => .error e
      | .ok bs => .ok (b :: bs)

/-- `BlockOrchestrator.build_block_execution_plan` (lines 210–263). -/
def build_block_execution_plan (qs : List Query) : Except String ExecutionPlan :=
  if qs.isEmpty then .ok ⟨[]⟩
  else
    let producers := buildProducers qs
    match exMapM
        (fun g => Except.map (fun bs => Block.mk g.1 bs)
          (create_parallel_batches_for_block g.2 producers))
        (groupByBlock qs) with
    | .error e => .error e
    | .ok blocks => .ok ⟨blocks⟩

/-- All queries of a plan, in block/batch order. -/
def flattenPlan (plan : ExecutionPlan) : List Query :=
  plan.blocks.flatMap (fun b => b.batches.flatMap (·.queries))

/-- All batches of a plan, in block order. -/
def allBatches (plan : ExecutionPlan) : List Batch :=
  plan.blocks.flatMap (·.batches)

/-- The queries of batch `j` of a batch list (empty when out of range). -/
def batchAt (bs : List Batch) (j : Nat) : List Query :=
  (bs.getD j ⟨[]⟩).queries

/-!  Executor model (`BlockOrchestrator.execute`, `_execute_batch_parallel`,
`_cancel_remaining_futures`, lines 265–413).

Per-query outcomes are an oracle `fails : Query → Option String` giving the
engine error text of a failing query.  The nondeterministic order in which
`as_completed` yields the futures of a batch is a parameter
(`completionOrder` / `sched`); a real run's order is a permutation of the
batch.  The `as_completed` loop iterates until *every* future of the batch
has completed, so by the time `failed_queries` is inspected all futures are
done: the thread pool has started and finished every submitted unit. -/

/-- The `max_workers == 1` sequential fallback of `_execute_batch_parallel`
(lines 358–366): run in batch order, raise on the first failure. -/
def runSeq (fails : Query → Option String) : List Query → List Query × Option String
  | [] => ([], none)
  | q :: rest =>
    match fails q with
    | some e => ([q], some ("Query '" ++ q.name ++ "' failed: " ++ e))
    | none =>
      let t := runSeq fails rest
      (q :: t.1, t.2)

/-- The aggregated failure message of `_execute_batch_parallel`
(lines 390–393). -/
def aggMsg (successCount : Nat) (failedEntries : List String) : String :=
  "Query execution failed after " ++ toString successCount ++ " successful quer" ++
    (if successCount == 1 then "y" else "ies") ++ ":\n  - " ++
    pyJoin "\n  - " failedEntries

/-- `_cancel_remaining_futures` (lines 397–413): count the futures that are
neither in `completed_futures` nor done.  When it is reached every future is
already done, so the count is 0. -/
def cancelRemainingCount (futures completed : List Query) : Nat :=
  (futures.filter (fun f => !(completed.contains f))).length

/-- Result of the thread-pool branch of `_execute_batch_parallel`:
the units actually run, the number of cancelled futures, and the aggregated
error message, if any. -/
structure PoolRun where
  ran : List Query
  cancelledCount : Nat
  errMsg : Option String
  deriving DecidableEq

/-- Thread-pool branch of `_execute_batch_parallel` (lines 367–395).
All futures are submitted up front; the `as_completed` loop collects every
result (the pool runs each submitted, never-cancelled unit to completion),
then the failure branch checks `len(completed_futures) < len(future_to_query)`
before cancelling — with every future completed that guard can never hold. -/
def execute_batch_parallel_pool (fails : Query → Option String)
    (batchQueries completionOrder : List Query) : PoolRun :=
  let completed := completionOrder
  let successes := completed.filter (fun q => (fails q).isNone)
  let failedEntries := completed.filterMap
    (fun q => (fails q).map (fun e => q.name ++ ": " ++ e))
  if failedEntries.isEmpty then ⟨completed, 0, none⟩
  else
    let cancelled :=
      if completed.length < batchQueries.length then
        cancelRemainingCount batchQueries completed
      else 0
    ⟨completed, cancelled, some (aggMsg successes.length failedEntries)⟩

/-- Execute one batch (lines 290–309 and 354–395): a single-query batch runs
synchronously, a multi-query batch goes through `_execute_batch_parallel`.
Returns the queries actually started and the raised message, if any. -/
def runBatch (maxWorkers : Nat) (fails : Query → Option String)
    (completionOrder : List Query) (b : Batch) : List Query × Option String :=
  if b.queries.length == 1 then
    match b.queries with
    | [] => ([], none)
    | q :: _ =>
      match fails q with
      | some e => ([q], some ("Query '" ++ q.name ++ "' failed: " ++ e))
      | none => ([q], none)
  else
    let mw := min maxWorkers b.queries.length
    if mw == 1 then runSeq fails b.queries
    else
      let pr := execute_batch_parallel_pool fails b.queries completionOrder
      (pr.ran, pr.errMsg)

/-- One started batch of an execution trace: its block index, its batch
index within the block, the units started, and the message it raised. -/
structure TraceEntry where
  blockIdx : Nat
  batchIdx : Nat
  ran : List Query
  errMsg : Option String
  deriving DecidableEq

/-- The batch loop of `execute` within one block (lines 290–311): batches in
order, aborted by the first raised exception. -/
def runBatches (maxWorkers : Nat) (fails : Query → Option String)
    (schedB : Nat → List Query) (i : Nat) :
    Nat → List Batch → List TraceEntry × Option String
  | _, [] => ([], none)
  | j, b :: rest =>
    let r := runBatch maxWorkers fails (schedB j) b
    match r.2 with
    | some m => ([⟨i, j, r.1, some m⟩], some m)
    | none =>
      let t := runBatches maxWorkers fails schedB i (j + 1) rest
      (⟨i, j, r.1, none⟩ :: t.1, t.2)

/-- The block loop of `execute` (lines 282–315): blocks strictly in order,
blocks without batches skipped, aborted by the first raised exception. -/
def runBlocks (maxWorkers : Nat) (fails : Query → Option String)
    (sched : Nat → Nat → List Query) :
    Nat → List Block → List TraceEntry × Option String
  | _, [] => ([], none)
  | i, blk :: rest =>
    if blk.batches.isEmpty then runBlocks maxWorkers fails sched (i + 1) rest
    else
      let r := runBatches maxWorkers fails (sched i) i 0 blk.batches
      match r.2 with
      | some m => (r.1, some m)
      | none =>
        let t := runBlocks maxWorkers fails sched (i + 1) rest
        (r.1 ++ t.1, t.2)

/-- `BlockOrchestrator.execute` on an already-built plan: the trace of
started batches and the first raised failure message. -/
def executePlan (maxWorkers : Nat) (fails : Query → Option String)
    (sched : Nat → Nat → List Query) (plan : ExecutionPlan) :
    List TraceEntry × Option String :=
  runBlocks maxWorkers fails sched 0 plan.blocks

/-- Lexicographic "no later than" on (block index, batch index) positions. -/
def lexLE (a b : Nat × Nat) : Prop :=
  a.1 < b.1 ∨ (a.1 = b.1 ∧ a.2 ≤ b.2)

/-!  SQL parser model (`sql_parser.py`).

`sqlglot` is an external library; its parse of an SQL text is modelled as an
`Except`-valued input: `.error` when `sqlglot.parse` (or any AST access
inside the `try` block) raises, `.ok` with the statement list otherwise.
A parsed statement is abstracted to what `extract_dependencies_and_outputs`
reads off the sqlglot AST: the statement kind, its target-table name
(`statement.this` — for CREATE the schema's name, lines 53–58), the names of
all `exp.Table` nodes found, and the CTE aliases. -/

inductive StmtKind where
  | createStmt
  | insertStmt
  | updateStmt
  | deleteStmt
  | otherStmt
  deriving DecidableEq

/-- Abstracted sqlglot statement, see the section comment. -/
structure PStmt where
  kind : StmtKind
  targetName : Option String
  tableRefs : List String
  cteAliases : List String
  deriving DecidableEq

/-- Python `set.add` on the list model of a set. -/
def sAdd (s : List String) (a : String) : List String :=
  if a ∈ s then s else s ++ [a]

/-- Python `set.discard`. -/
def sDiscard (s : List String) (a : String) : List String :=
  s.filter (fun x => x ≠ a)

/-- Python set difference. -/
def sDiff (s t : List String) : List String :=
  s.filter (fun x => !(t.contains x))

/-- Per-statement processing of `extract_dependencies_and_outputs`
(lines 35–77 of `sql_parser.py`): table references minus the INSERT target
become dependencies; CREATE/INSERT/UPDATE/DELETE targets become outputs;
CTE aliases are discarded from the dependencies. -/
def stmtProcess (acc : List String × List String) (st : PStmt) :
    List String × List String :=
  let insertTarget : Option String :=
    if st.kind = .insertStmt then st.targetName else none
  let deps := st.tableRefs.foldl
    (fun d tn => if tn ≠ "" ∧ some tn ≠ insertTarget then sAdd d tn else d) acc.1
  let outs :=
    match st.kind, st.targetName with
    | .createStmt, some t => sAdd acc.2 t
    | .insertStmt, some t => sAdd acc.2 t
    | .updateStmt, some t => sAdd acc.2 t
    | .deleteStmt, some t => sAdd acc.2 t
    | _, _ => acc.2
  (st.cteAliases.foldl sDiscard deps, outs)

/-- `SQLParser.extract_dependencies_and_outputs` (lines 20–98): on any
internal parse failure return two empty sets; otherwise process every
non-`None` statement, then subtract the CREATE outputs from the
dependencies (lines 79–92). -/
def extract_dependencies_and_outputs
    (parsed : Except String (List (Option PStmt))) : List String × List String :=
  match parsed with
  | .error _ => ([], [])
  | .ok stmts =>
    let acc := stmts.foldl
      (fun acc ost =>
        match ost with
        | none => acc
        | some st => stmtProcess acc st)
      ([], [])
    let createOutputs := stmts.foldl
      (fun co ost =>
        match ost with
        | none => co
        | some st =>
          match st.kind, st.targetName with
          | .createStmt, some t => sAdd co t
          | _, _ => co)
      []
    (sDiff acc.1 createOutputs, acc.2)

/-- `BlockOrchestrator._parse_sql` (lines 185–208): build a `Query` from the
extraction result; any failure is absorbed into empty dependency/output
sets, and a `Query` value is always returned to the caller. -/
def parse_sql (name sql block_name code_name : String)
    (parsed : Except String (List (Option PStmt))) : Query :=
  let r := extract_dependencies_and_outputs parsed
  ⟨name, sql, r.1, r.2, block_name, code_name⟩

/-- `Code` of `configuration.py` as used by `SQLParser.get_query_name`. -/
structure Code where
  name : String
  script : List String
  deriving DecidableEq

/-- `SQLParser.get_query_name` (lines 116–130 of `sql_parser.py`). -/
def get_query_name (code : Code) (script_index : Nat) : String :=
  if code.script.length > 1 then code.name ++ "_" ++ toString script_index
  else code.name

/-! ### Basic lemmas: substring search, joins, dicts -/

theorem contains_iff (l : List String) (s : String) : l.contains s = true ↔ s ∈ l := by
  induction l with
  | nil => simp
  | cons x xs ih =>
    constructor
    · intro h
      simp only [List.contains_cons, Bool.or_eq_true, beq_iff_eq] at h
      rcases h with h | h
      · exact h ▸ List.mem_cons_self _ _
      · exact List.mem_cons_of_mem _ (ih.mp h)
    · intro h
      rcases List.mem_cons.mp h with h | h
      · simp [List.contains_cons, h]
      · simp only [List.contains_cons, Bool.or_eq_true]
        exact Or.inr (ih.mpr h)

theorem strData_append (a b : String) : (a ++ b).data = a.data ++ b.data := rfl

theorem charsStartWith_self_append (p r : List Char) :
    charsStartWith (p ++ r) p = true := by
  induction p with
  | nil => cases r <;> rfl
  | cons c cs ih => simp [charsStartWith, ih]

theorem charsContain_nil_pat (s : List Char) : charsContain [] s = true := by
  induction s with
  | nil => rfl
  | cons c cs ih => simp [charsContain, ih]

theorem charsContain_self_append (p r : List Char) :
    charsContain p (p ++ r) = true := by
  cases p with
  | nil => simpa using charsContain_nil_pat r
  | cons c cs =>
    have h := charsStartWith_self_append (c :: cs) r
    rw [List.cons_append] at h
    simp [charsContain, h]

theorem charsContain_append_left (l : List Char) {p s : List Char}
    (h : charsContain p s = true) : charsContain p (l ++ s) = true := by
  induction l with
  | nil => simpa using h
  | cons c cs ih => simp [charsContain, ih]

theorem strContains_middle (x pat y : String) :
    strContains (x ++ pat ++ y) pat = true := by
  show charsContain pat.data (x ++ pat ++ y).data = true
  have : (x ++ pat ++ y).data = x.data ++ (pat.data ++ y.data) := by
    simp [strData_append]
  rw [this]
  exact charsContain_append_left x.data (charsContain_self_append pat.data y.data)

theorem strContains_join_mem (sep : String) {l : List String} {a : String}
    (h : a ∈ l) : strContains (pyJoin sep l) a = true := by
  induction l with
  | nil => simp at h
  | cons x rest ih =>
    cases rest with
    | nil =>
      simp at h
      subst h
      show charsContain a.data a.data = true
      simpa using charsContain_self_append a.data []
    | cons y t =>
      rcases List.mem_cons.mp h with h1 | h2
      · subst h1
        show charsContain a.data (a ++ sep ++ pyJoin sep (y :: t)).data = true
        have : (a ++ sep ++ pyJoin sep (y :: t)).data =
            a.data ++ ((sep ++ pyJoin sep (y :: t)).data) := by
          simp [strData_append]
        rw [this]
        exact charsContain_self_append a.data _
      · have hrec := ih h2
        show charsContain a.data (x ++ sep ++ pyJoin sep (y :: t)).data = true
        have : (x ++ sep ++ pyJoin sep (y :: t)).data =
            (x.data ++ sep.data) ++ (pyJoin sep (y :: t)).data := by
          simp [strData_append]
        rw [this]
        exact charsContain_append_left _ hrec

theorem dGet?_dUpdate_self {α : Type} (d : List (String × α)) (k : String) (v : α) :
    dGet? (dUpdate d k v) k = some v := by
  induction d with
  | nil => simp [dUpdate, dGet?]
  | cons p rest ih =>
    by_cases h : p.1 = k
    · simp [dUpdate, h, dGet?]
    · simp [dUpdate, h, dGet?, ih]

theorem dGet?_dUpdate_ne {α : Type} (d : List (String × α)) {k k' : String} (v : α)
    (h : k' ≠ k) : dGet? (dUpdate d k v) k' = dGet? d k' := by
  induction d with
  | nil => simp [dUpdate, dGet?, Ne.symm h]
  | cons p rest ih =>
    by_cases hp : p.1 = k
    · subst hp
      simp only [dUpdate, if_pos rfl]
      simp [dGet?, Ne.symm h]
    · simp only [dUpdate, if_neg hp]
      by_cases hp' : p.1 = k'
      · simp [dGet?, hp']
      · simp [dGet?, hp', ih]

theorem dUpdate_mem {α : Type} {d : List (String × α)} {k : String} {v : α}
    {e : String × α} (h : e ∈ dUpdate d k v) : e ∈ d ∨ e = (k, v) := by
  induction d with
  | nil => simp [dUpdate] at h; simp [h]
  | cons p rest ih =>
    by_cases hp : p.1 = k
    · simp [dUpdate, hp] at h
      rcases h with h | h
      · right; simp [h]
      · left; exact List.mem_cons_of_mem _ h
    · simp [dUpdate, hp] at h
      rcases h with h | h
      · left; simp [h]
      · rcases ih h with h' | h'
        · left; exact List.mem_cons_of_mem _ h'
        · right; exact h'

theorem dGet?_mem {α : Type} {d : List (String × α)} {k : String} {v : α}
    (h : dGet? d k = some v) : (k, v) ∈ d := by
  induction d with
  | nil => simp [dGet?] at h
  | cons p rest ih =>
    by_cases hp : p.1 = k
    · simp [dGet?, hp] at h
      have : p = (k, v) := by
        cases p
        simp_all
      rw [this] at *
      exact List.mem_cons_self _ _
    · simp [dGet?, hp] at h
      exact List.mem_cons_of_mem _ (ih h)

theorem exMapM_ok_forall2 {α β : Type} {f : α → Except String β} :
    ∀ {l : List α} {out : List β}, exMapM f l = .ok out →
      List.Forall₂ (fun a b => f a = .ok b) l out := by
  intro l
  induction l with
  | nil => intro out h; simp [exMapM] at h; subst h; exact List.Forall₂.nil
  | cons a as ih =>
    intro out h
    simp only [exMapM] at h
    cases hfa : f a with
    | error e => rw [hfa] at h; simp at h
    | ok b =>
      rw [hfa] at h
      cases hrest : exMapM f as with
      | error e => rw [hrest] at h; simp at h
      | ok bs =>
        rw [hrest] at h
        simp at h
        subst h
        exact List.Forall₂.cons hfa (ih hrest)

theorem exMapM_error_of_mem {α β : Type} {f : α → Except String β} {l : List α}
    {a : α} {e : String} (ha : a ∈ l) (hf : f a = .error e) :
    ∃ msg, exMapM f l = .error msg := by
  induction l with
  | nil => simp at ha
  | cons x xs ih =>
    simp only [exMapM]
    cases hfx : f x with
    | error e' => exact ⟨e', rfl⟩
    | ok b =>
      rcases List.mem_cons.mp ha with h1 | h2
      · subst h1; rw [hfx] at hf; simp at hf
      · rcases ih h2 with ⟨msg, hmsg⟩
        rw [hmsg]
        exact ⟨msg, rfl⟩

theorem forall2_mem_right {α β : Type} {R : α → β → Prop} :
    ∀ {l1 : List α} {l2 : List β}, List.Forall₂ R l1 l2 →
      ∀ b ∈ l2, ∃ a ∈ l1, R a b := by
  intro l1 l2 h
  induction h with
  | nil => intro b hb; simp at hb
  | cons hR _ ih =>
    intro b hb
    rcases List.mem_cons.mp hb with h1 | h2
    · subst h1; exact ⟨_, List.mem_cons_self _ _, hR⟩
    · rcases ih b h2 with ⟨a, ha, hab⟩
      exact ⟨a, List.mem_cons_of_mem _ ha, hab⟩

/-! ### Degree bookkeeping lemmas for the Kahn loop -/

/-- Keys of an association list. -/
def keys {α : Type} (d : List (String × α)) : List String :=
  d.map Prod.fst

/-- All queries of a batch list, in order. -/
def flattenB (bs : List Batch) : List Query :=
  bs.flatMap (·.queries)

theorem flattenB_cons (b : Batch) (bs : List Batch) :
    flattenB (b :: bs) = b.queries ++ flattenB bs := rfl

theorem batchAt_nil (j : Nat) : batchAt [] j = [] := by
  cases j <;> rfl

theorem batchAt_cons_zero (b : Batch) (bs : List Batch) :
    batchAt (b :: bs) 0 = b.queries := rfl

theorem batchAt_cons_succ (b : Batch) (bs : List Batch) (j : Nat) :
    batchAt (b :: bs) (j + 1) = batchAt bs j := rfl

theorem lookupInt_cons (p : String × Int) (rest : List (String × Int)) (k : String) :
    lookupInt (p :: rest) k = if p.1 = k then p.2 else lookupInt rest k := by
  by_cases h : p.1 = k
  · simp [lookupInt, List.find?_cons, h]
  · simp [lookupInt, List.find?_cons, h]

theorem keys_bump (d : List (String × Int)) (k : String) (v : Int) :
    keys (bump d k v) = keys d := by
  induction d with
  | nil => rfl
  | cons p rest ih =>
    show keys ((if p.1 = k then (p.1, p.2 + v) else p) :: bump rest k v) = _
    by_cases h : p.1 = k <;> simp [keys, h] <;>
      simpa [keys] using ih

theorem lookupInt_bump_ne (d : List (String × Int)) {k n : String} (v : Int)
    (h : n ≠ k) : lookupInt (bump d k v) n = lookupInt d n := by
  induction d with
  | nil => rfl
  | cons p rest ih =>
    show lookupInt ((if p.1 = k then (p.1, p.2 + v) else p) :: bump rest k v) n = _
    by_cases hp : p.1 = k
    · subst hp
      rw [if_pos rfl, lookupInt_cons, lookupInt_cons, if_neg (fun hh => h hh.symm),
        if_neg (fun hh => h hh.symm)]
      exact ih
    · rw [if_neg hp, lookupInt_cons, lookupInt_cons]
      by_cases hn : p.1 = n
      · simp [hn]
      · simp [hn, ih]

theorem lookupInt_bump_self (d : List (String × Int)) {k : String} (v : Int)
    (hmem : k ∈ keys d) : lookupInt (bump d k v) k = lookupInt d k + v := by
  induction d with
  | nil => simp [keys] at hmem
  | cons p rest ih =>
    show lookupInt ((if p.1 = k then (p.1, p.2 + v) else p) :: bump rest k v) k = _
    by_cases hp : p.1 = k
    · rw [if_pos hp, lookupInt_cons, lookupInt_cons, if_pos hp, if_pos hp]
    · rw [if_neg hp, lookupInt_cons, lookupInt_cons, if_neg hp, if_neg hp]
      have : k ∈ keys rest := by
        simp [keys] at hmem ⊢
        rcases hmem with h | h
        · exact absurd h.symm hp
        · exact h
      exact ih this

theorem keys_decEdges (edges : List (String × String)) (R : List String) :
    ∀ degs, keys (decEdges edges R degs) = keys degs := by
  induction edges with
  | nil => intro degs; rfl
  | cons e es ih =>
    intro degs
    show keys (List.foldl _ (if R.contains e.1 then bump degs e.2 (-1) else degs) es) = _
    rw [show List.foldl (fun d e => if R.contains e.1 then bump d e.2 (-1) else d)
        (if R.contains e.1 then bump degs e.2 (-1) else degs) es =
        decEdges es R (if R.contains e.1 then bump degs e.2 (-1) else degs) from rfl,
      ih]
    by_cases h : R.contains e.1
    · rw [if_pos h, keys_bump]
    · rw [if_neg h]

theorem decEdges_lookup (R : List String) {n : String} :
    ∀ (edges : List (String × String)) (degs : List (String × Int)),
      n ∈ keys degs →
      lookupInt (decEdges edges R degs) n =
        lookupInt degs n -
          ((edges.filter (fun e => R.contains e.1 && e.2 == n)).length : Int) := by
  intro edges
  induction edges with
  | nil => intro degs _; simp [decEdges]
  | cons e es ih =>
    intro degs hmem
    show lookupInt (decEdges es R (if R.contains e.1 then bump degs e.2 (-1) else degs)) n = _
    by_cases hR : R.contains e.1
    · rw [if_pos hR]
      by_cases hn : e.2 = n
      · have hk : n ∈ keys (bump degs e.2 (-1)) := by rw [keys_bump]; exact hmem
        rw [ih _ hk, hn, lookupInt_bump_self degs (-1) hmem]
        have : List.filter (fun e => R.contains e.1 && e.2 == n) (e :: es) =
            e :: List.filter (fun e => R.contains e.1 && e.2 == n) es := by
          rw [List.filter_cons_of_pos]
          rw [hR, hn]
          simp
        rw [this]
        push_cast [List.length_cons]
        ring
      · have hk : n ∈ keys (bump degs e.2 (-1)) := by rw [keys_bump]; exact hmem
        rw [ih _ hk, lookupInt_bump_ne degs (-1) (fun hh => hn hh.symm)]
        have : List.filter (fun e => R.contains e.1 && e.2 == n) (e :: es) =
            List.filter (fun e => R.contains e.1 && e.2 == n) es := by
          rw [List.filter_cons_of_neg]
          simp [hn]
        rw [this]
    · rw [if_neg hR]
      rw [ih _ hmem]
      have hRf : R.contains e.1 = false := by simpa using hR
      have : List.filter (fun e => R.contains e.1 && e.2 == n) (e :: es) =
          List.filter (fun e => R.contains e.1 && e.2 == n) es := by
        rw [List.filter_cons_of_neg]
        rw [hRf]
        simp
      rw [this]

theorem lookupInt_baseMap (qs : List Query) (n : String) :
    lookupInt (qs.map (fun q => (q.name, (0 : Int)))) n = 0 := by
  induction qs with
  | nil => rfl
  | cons q rest ih =>
    rw [List.map_cons, lookupInt_cons]
    by_cases h : q.name = n <;> simp [h, ih]

theorem keys_foldl_bump (edges : List (String × String)) :
    ∀ d0, keys (edges.foldl (fun d e => bump d e.2 1) d0) = keys d0 := by
  induction edges with
  | nil => intro d0; rfl
  | cons e es ih =>
    intro d0
    show keys (es.foldl _ (bump d0 e.2 1)) = _
    rw [ih, keys_bump]

theorem initDegs_keys (qs : List Query) (edges : List (String × String)) :
    keys (initDegs qs edges) = qs.map (·.name) := by
  show keys (edges.foldl _ _) = _
  rw [keys_foldl_bump]
  simp [keys]

theorem lookupInt_foldl_bump {n : String} :
    ∀ (edges : List (String × String)) (d0 : List (String × Int)),
      n ∈ keys d0 →
      lookupInt (edges.foldl (fun d e => bump d e.2 1) d0) n =
        lookupInt d0 n + ((edges.filter (fun e => e.2 == n)).length : Int) := by
  intro edges
  induction edges with
  | nil => intro d0 _; simp
  | cons e es ih =>
    intro d0 hmem
    show lookupInt (es.foldl _ (bump d0 e.2 1)) n = _
    by_cases hn : e.2 = n
    · have hk : n ∈ keys (bump d0 e.2 1) := by rw [keys_bump]; exact hmem
      rw [ih _ hk, hn, lookupInt_bump_self d0 1 hmem]
      have : List.filter (fun e => e.2 == n) (e :: es) =
          e :: List.filter (fun e => e.2 == n) es := by
        rw [List.filter_cons_of_pos]; simp [hn]
      rw [this]
      push_cast [List.length_cons]
      ring
    · have hk : n ∈ keys (bump d0 e.2 1) := by rw [keys_bump]; exact hmem
      rw [ih _ hk, lookupInt_bump_ne d0 1 (fun hh => hn hh.symm)]
      have : List.filter (fun e => e.2 == n) (e :: es) =
          List.filter (fun e => e.2 == n) es := by
        rw [List.filter_cons_of_neg]; simp [hn]
      rw [this]

theorem initDegs_lookup (qs : List Query) (edges : List (String × String))
    {n : String} (hn : n ∈ qs.map (·.name)) :
    lookupInt (initDegs qs edges) n = ((edges.filter (fun e => e.2 == n)).length : Int) := by
  show lookupInt (edges.foldl _ _) n = _
  have hk : n ∈ keys (qs.map (fun q => (q.name, (0 : Int)))) := by
    simp [keys] at hn ⊢
    exact hn
  rw [lookupInt_foldl_bump edges _ hk, lookupInt_baseMap]
  ring

/-! ### Correctness of the topological batching loop -/

theorem removeReady_eq (degs : List (String × Int)) (rem : List Query) :
    removeReady ((readyOf degs rem).map (·.name)) rem =
      rem.filter (fun r => !(lookupInt degs r.name == 0)) := by
  apply List.filter_congr
  intro r hr
  have hc : ((readyOf degs rem).map (·.name)).contains r.name =
      (lookupInt degs r.name == 0) := by
    by_cases h : lookupInt degs r.name = 0
    · have hmem : r ∈ readyOf degs rem := by
        apply List.mem_filter.mpr
        exact ⟨hr, by simp [h]⟩
      have : r.name ∈ (readyOf degs rem).map (·.name) :=
        List.mem_map_of_mem _ hmem
      rw [(contains_iff _ _).mpr this]
      simp [h]
    · have : ¬ r.name ∈ (readyOf degs rem).map (·.name) := by
        intro hmem
        rcases List.mem_map.mp hmem with ⟨r', hr', hname⟩
        have h0 := (List.mem_filter.mp hr').2
        rw [hname] at h0
        simp at h0
        exact h h0
      have hf : ((readyOf degs rem).map (·.name)).contains r.name = false := by
        rcases Bool.eq_false_or_eq_true (((readyOf degs rem).map (·.name)).contains r.name)
          with hb | hb
        · exact absurd ((contains_iff _ _).mp hb) this
        · exact hb
      rw [hf]
      simp [h]
  rw [hc]

theorem kahn_perm (edges : List (String × String)) :
    ∀ (fuel : Nat) (rem : List Query) (degs : List (String × Int)) (bs : List Batch),
      kahnLoop edges fuel rem degs = .ok bs → (flattenB bs).Perm rem := by
  intro fuel
  induction fuel with
  | zero =>
    intro rem degs bs h
    cases rem with
    | nil =>
      simp [kahnLoop] at h
      subst h
      simp [flattenB]
    | cons q rest => simp [kahnLoop] at h
  | succ fuel ih =>
    intro rem degs bs h
    cases rem with
    | nil =>
      simp [kahnLoop] at h
      subst h
      simp [flattenB]
    | cons q rest =>
      rw [show kahnLoop edges (fuel + 1) (q :: rest) degs =
          (if (readyOf degs (q :: rest)).isEmpty then .error (circularMsg (q :: rest))
           else
             match kahnLoop edges fuel
                 (removeReady ((readyOf degs (q :: rest)).map (·.name)) (q :: rest))
                 (decEdges edges ((readyOf degs (q :: rest)).map (·.name)) degs) with
             | .error e => .error e
             | .ok bs => .ok (⟨readyOf degs (q :: rest)⟩ :: bs)) from rfl] at h
      by_cases hr : (readyOf degs (q :: rest)).isEmpty
      · rw [if_pos hr] at h
        exact absurd h (by simp)
      · rw [if_neg hr] at h
        cases hk : kahnLoop edges fuel
            (removeReady ((readyOf degs (q :: rest)).map (·.name)) (q :: rest))
            (decEdges edges ((readyOf degs (q :: rest)).map (·.name)) degs) with
        | error e =>
          rw [hk] at h
          exact absurd h (by simp)
        | ok bs' =>
          rw [hk] at h
          simp at h
          subst h
          rw [flattenB_cons]
          have h1 := ih _ _ _ hk
          rw [removeReady_eq] at h1
          have h2 := List.Perm.append_left (readyOf degs (q :: rest)) h1
          exact h2.trans (List.filter_append_perm _ _)

theorem cnt_pos {edges : List (String × String)} {a b : String} {A : List String}
    (he : (a, b) ∈ edges) (ha : a ∈ A) :
    1 ≤ (edges.filter (fun e => A.contains e.1 && e.2 == b)).length := by
  have hmem : (a, b) ∈ edges.filter (fun e => A.contains e.1 && e.2 == b) := by
    apply List.mem_filter.mpr
    refine ⟨he, ?_⟩
    simp [ha]
  have := List.length_pos.mpr (List.ne_nil_of_mem hmem)
  omega

theorem cnt_split (B C : List String) {A : List String} (n : String)
    (hU : ∀ s, A.contains s = (B.contains s || C.contains s))
    (hD : ∀ s, (B.contains s && C.contains s) = false) :
    ∀ edges : List (String × String),
      (edges.filter (fun e => A.contains e.1 && e.2 == n)).length =
        (edges.filter (fun e => B.contains e.1 && e.2 == n)).length +
          (edges.filter (fun e => C.contains e.1 && e.2 == n)).length := by
  intro edges
  induction edges with
  | nil => simp
  | cons e es ih =>
    have hD1 := hD e.1
    rw [List.filter_cons, List.filter_cons, List.filter_cons, hU e.1]
    have e1 : ∀ x : Bool, ¬((x && false) = true) := by decide
    cases hn2 : ((e.2 == n) : Bool) with
    | false =>
      rw [if_neg (e1 _), if_neg (e1 _), if_neg (e1 _)]
      exact ih
    | true =>
      cases hb : B.contains e.1 with
      | true =>
        have hcf : C.contains e.1 = false := by
          rw [hb] at hD1
          simpa using hD1
        rw [hcf]
        rw [if_pos (by decide : ((true || false) && true) = true),
          if_pos (by decide : ((true && true) : Bool) = true),
          if_neg (by decide : ¬(((false && true) : Bool) = true))]
        simp only [List.length_cons]
        omega
      | false =>
        cases hc : C.contains e.1 with
        | true =>
          rw [if_pos (by decide : ((false || true) && true) = true),
            if_neg (by decide : ¬(((false && true) : Bool) = true)),
            if_pos (by decide : ((true && true) : Bool) = true)]
          simp only [List.length_cons]
          omega
        | false =>
          rw [if_neg (by decide : ¬(((false || false) && true) = true)),
            if_neg (by decide : ¬(((false && true) : Bool) = true)),
            if_neg (by decide : ¬(((false && true) : Bool) = true))]
          exact ih

theorem kahn_order (edges : List (String × String)) :
    ∀ (fuel : Nat) (rem : List Query) (degs : List (String × Int)) (bs : List Batch),
      kahnLoop edges fuel rem degs = .ok bs →
      (∀ q ∈ rem, q.name ∈ keys degs) →
      (∀ q ∈ rem, lookupInt degs q.name =
        ((edges.filter (fun e =>
          (rem.map (fun x => x.name)).contains e.1 && e.2 == q.name)).length : Int)) →
      ∀ a b, (a, b) ∈ edges → a ∈ rem.map (fun x => x.name) →
      ∀ j q2, q2 ∈ batchAt bs j → q2.name = b →
      ∃ i, i < j ∧ ∃ p, p ∈ batchAt bs i ∧ p.name = a := by
  intro fuel
  induction fuel with
  | zero =>
    intro rem degs bs h _ _ a b _ _ j q2 hq2 _
    cases rem with
    | nil =>
      simp [kahnLoop] at h
      subst h
      rw [batchAt_nil] at hq2
      simp at hq2
    | cons q rest => simp [kahnLoop] at h
  | succ fuel ih =>
    intro rem degs bs h hsub hinv a b hab haR j q2 hq2 hq2b
    cases rem with
    | nil =>
      simp [kahnLoop] at h
      subst h
      rw [batchAt_nil] at hq2
      simp at hq2
    | cons q rest =>
      rw [show kahnLoop edges (fuel + 1) (q :: rest) degs =
          (if (readyOf degs (q :: rest)).isEmpty then .error (circularMsg (q :: rest))
           else
             match kahnLoop edges fuel
                 (removeReady ((readyOf degs (q :: rest)).map (·.name)) (q :: rest))
                 (decEdges edges ((readyOf degs (q :: rest)).map (·.name)) degs) with
             | .error e => .error e
             | .ok bs => .ok (⟨readyOf degs (q :: rest)⟩ :: bs)) from rfl] at h
      by_cases hr : (readyOf degs (q :: rest)).isEmpty
      · rw [if_pos hr] at h
        exact absurd h (by simp)
      · rw [if_neg hr] at h
        cases hk : kahnLoop edges fuel
            (removeReady ((readyOf degs (q :: rest)).map (·.name)) (q :: rest))
            (decEdges edges ((readyOf degs (q :: rest)).map (·.name)) degs) with
        | error e =>
          rw [hk] at h
          exact absurd h (by simp)
        | ok bs' =>
          rw [hk] at h
          simp at h
          subst h
          cases j with
          | zero =>
            rw [batchAt_cons_zero] at hq2
            have hmem := List.mem_filter.mp hq2
            have h0 : lookupInt degs q2.name = 0 := by simpa using hmem.2
            have hc := hinv q2 hmem.1
            rw [h0, hq2b] at hc
            have hpos := cnt_pos hab haR
            exfalso
            omega
          | succ j' =>
            rw [batchAt_cons_succ] at hq2
            have hU : ∀ s, ((q :: rest).map (fun x => x.name)).contains s =
                (((removeReady ((readyOf degs (q :: rest)).map (·.name))
                    (q :: rest)).map (fun x => x.name)).contains s ||
                  ((readyOf degs (q :: rest)).map (·.name)).contains s) := by
              intro s
              by_cases hs : s ∈ (q :: rest).map (fun x => x.name)
              · rw [(contains_iff _ _).mpr hs]
                rcases List.mem_map.mp hs with ⟨r, hrm, hrn⟩
                by_cases hray : r.name ∈ (readyOf degs (q :: rest)).map (·.name)
                · have hray2 : ((readyOf degs (q :: rest)).map (·.name)).contains s
                      = true := by
                    rw [← hrn]
                    exact (contains_iff _ _).mpr hray
                  rw [hray2]
                  simp
                · have hrayf : ((readyOf degs (q :: rest)).map (·.name)).contains r.name
                      = false := by
                    rcases Bool.eq_false_or_eq_true
                        (((readyOf degs (q :: rest)).map (·.name)).contains r.name)
                      with hbb | hbb
                    · exact absurd ((contains_iff _ _).mp hbb) hray
                    · exact hbb
                  have hr2 : r ∈ removeReady ((readyOf degs (q :: rest)).map (·.name))
                      (q :: rest) := by
                    apply List.mem_filter.mpr
                    refine ⟨hrm, ?_⟩
                    rw [hrayf]
                    rfl
                  have hsm : s ∈ (removeReady ((readyOf degs (q :: rest)).map (·.name))
                      (q :: rest)).map (fun x => x.name) := by
                    rw [← hrn]
                    exact List.mem_map_of_mem _ hr2
                  rw [(contains_iff _ _).mpr hsm]
                  simp
              · have h1 : ((q :: rest).map (fun x => x.name)).contains s = false := by
                  rcases Bool.eq_false_or_eq_true
                      (((q :: rest).map (fun x => x.name)).contains s) with hbb | hbb
                  · exact absurd ((contains_iff _ _).mp hbb) hs
                  · exact hbb
                have h2 : ((removeReady ((readyOf degs (q :: rest)).map (·.name))
                    (q :: rest)).map (fun x => x.name)).contains s = false := by
                  rcases Bool.eq_false_or_eq_true
                      (((removeReady ((readyOf degs (q :: rest)).map (·.name))
                        (q :: rest)).map (fun x => x.name)).contains s) with hbb | hbb
                  · exfalso
                    rcases List.mem_map.mp ((contains_iff _ _).mp hbb) with ⟨r, hrm, hrn⟩
                    exact hs (hrn ▸ List.mem_map_of_mem _ (List.mem_filter.mp hrm).1)
                  · exact hbb
                have h3 : ((readyOf degs (q :: rest)).map (·.name)).contains s = false := by
                  rcases Bool.eq_false_or_eq_true
                      (((readyOf degs (q :: rest)).map (·.name)).contains s) with hbb | hbb
                  · exfalso
                    rcases List.mem_map.mp ((contains_iff _ _).mp hbb) with ⟨r, hrm, hrn⟩
                    exact hs (hrn ▸ List.mem_map_of_mem _ (List.mem_filter.mp hrm).1)
                  · exact hbb
                rw [h1, h2, h3]
                rfl
            have hD : ∀ s, (((removeReady ((readyOf degs (q :: rest)).map (·.name))
                (q :: rest)).map (fun x => x.name)).contains s &&
                  ((readyOf degs (q :: rest)).map (·.name)).contains s) = false := by
              intro s
              rcases Bool.eq_false_or_eq_true
                  (((removeReady ((readyOf degs (q :: rest)).map (·.name))
                    (q :: rest)).map (fun x => x.name)).contains s) with hbb | hbb
              · rcases List.mem_map.mp ((contains_iff _ _).mp hbb) with ⟨r, hrm, hrn⟩
                have hcond := (List.mem_filter.mp hrm).2
                have : ((readyOf degs (q :: rest)).map (·.name)).contains s = false := by
                  subst hrn
                  simpa using hcond
                rw [this]
                simp
              · rw [hbb]
                rfl
            have hsub2 : ∀ q' ∈ removeReady ((readyOf degs (q :: rest)).map (·.name))
                (q :: rest), q'.name ∈ keys (decEdges edges
                  ((readyOf degs (q :: rest)).map (·.name)) degs) := by
              intro q' hq'
              rw [keys_decEdges]
              exact hsub q' (List.mem_filter.mp hq').1
            have hinv2 : ∀ q' ∈ removeReady ((readyOf degs (q :: rest)).map (·.name))
                (q :: rest),
                lookupInt (decEdges edges ((readyOf degs (q :: rest)).map (·.name)) degs)
                    q'.name =
                  ((edges.filter (fun e =>
                    ((removeReady ((readyOf degs (q :: rest)).map (·.name))
                      (q :: rest)).map (fun x => x.name)).contains e.1 &&
                        e.2 == q'.name)).length : Int) := by
              intro q' hq'
              have hq'rem : q' ∈ q :: rest := (List.mem_filter.mp hq').1
              rw [decEdges_lookup _ edges degs (hsub q' hq'rem), hinv q' hq'rem]
              have hsplit := cnt_split
                ((removeReady ((readyOf degs (q :: rest)).map (·.name))
                  (q :: rest)).map (fun x => x.name))
                ((readyOf degs (q :: rest)).map (·.name)) q'.name hU hD edges
              omega
            rcases Bool.eq_false_or_eq_true
                (((readyOf degs (q :: rest)).map (·.name)).contains a) with hcn | hcn
            · rcases List.mem_map.mp ((contains_iff _ _).mp hcn) with ⟨p, hpm, hpn⟩
              exact ⟨0, Nat.succ_pos _, p, by rw [batchAt_cons_zero]; exact hpm, hpn⟩
            · have haB : a ∈ (removeReady ((readyOf degs (q :: rest)).map (·.name))
                  (q :: rest)).map (fun x => x.name) := by
                have hUa := hU a
                rw [(contains_iff _ _).mpr haR, hcn] at hUa
                rcases Bool.eq_false_or_eq_true
                    (((removeReady ((readyOf degs (q :: rest)).map (·.name))
                      (q :: rest)).map (fun x => x.name)).contains a) with hbb | hbb
                · exact (contains_iff _ _).mp hbb
                · rw [hbb] at hUa
                  simp at hUa
              rcases ih _ _ _ hk hsub2 hinv2 a b hab haB j' q2 hq2 hq2b
                with ⟨i, hi, p, hp, hpa⟩
              exact ⟨i + 1, Nat.succ_lt_succ hi, p,
                by rw [batchAt_cons_succ]; exact hp, hpa⟩

/-! ### The local graph: membership characterisations -/

theorem mem_foldl_dUpdate {q : Query} :
    ∀ (outs : List String) (tc0 : List (String × Query)) (e : String × Query),
      e ∈ outs.foldl (fun tc out => dUpdate tc out q) tc0 →
      e ∈ tc0 ∨ ∃ out ∈ outs, e = (out, q) := by
  intro outs
  induction outs with
  | nil => intro tc0 e h; exact Or.inl h
  | cons o os ih =>
    intro tc0 e h
    rcases ih (dUpdate tc0 o q) e h with h1 | h2
    · rcases dUpdate_mem h1 with h3 | h4
      · exact Or.inl h3
      · exact Or.inr ⟨o, List.mem_cons_self _ _, h4⟩
    · rcases h2 with ⟨out, ho, he⟩
      exact Or.inr ⟨out, List.mem_cons_of_mem _ ho, he⟩

theorem tableCreators_entry :
    ∀ (qs : List Query) (tc0 : List (String × Query)) (e : String × Query),
      e ∈ qs.foldl
        (fun tc q =>
          if hasCREATE q then q.outputs.foldl (fun tc out => dUpdate tc out q) tc
          else tc) tc0 →
      e ∈ tc0 ∨ ∃ q ∈ qs, hasCREATE q = true ∧ e.1 ∈ q.outputs ∧ e.2 = q := by
  intro qs
  induction qs with
  | nil => intro tc0 e h; exact Or.inl h
  | cons q rest ih =>
    intro tc0 e h
    rcases ih _ e h with h1 | h2
    · replace h1 : e ∈ (if hasCREATE q = true then
          q.outputs.foldl (fun tc out => dUpdate tc out q) tc0 else tc0) := h1
      by_cases hcr : hasCREATE q = true
      · rw [if_pos hcr] at h1
        rcases mem_foldl_dUpdate q.outputs tc0 e h1 with h3 | h4
        · exact Or.inl h3
        · rcases h4 with ⟨out, ho, he⟩
          refine Or.inr ⟨q, List.mem_cons_self _ _, hcr, ?_, ?_⟩
          · rw [he]; exact ho
          · rw [he]
      · rw [if_neg hcr] at h1
        exact Or.inl h1
    · rcases h2 with ⟨q', hq', hcr, ho, he⟩
      exact Or.inr ⟨q', List.mem_cons_of_mem _ hq', hcr, ho, he⟩

theorem tableCreators_get {qs : List Query} {t : String} {c : Query}
    (h : dGet? (tableCreators qs) t = some c) :
    c ∈ qs ∧ hasCREATE c = true ∧ t ∈ c.outputs := by
  have hm := dGet?_mem h
  rcases tableCreators_entry qs [] (t, c) hm with h1 | h2
  · simp at h1
  · rcases h2 with ⟨q, hq, hcr, ht, he⟩
    have he' : c = q := he
    subst he'
    exact ⟨hq, hcr, ht⟩

theorem localEdges_mem {qs : List Query} {ps : List (String × Query)} {a b : String}
    (h : (a, b) ∈ localEdges qs ps) :
    a ∈ qs.map (fun x => x.name) ∧ b ∈ qs.map (fun x => x.name) := by
  simp only [localEdges] at h
  rcases List.mem_flatMap.mp h with ⟨q, hq, hmem⟩
  rcases List.mem_append.mp hmem with h1 | h2
  · by_cases hins : hasINSERT q = true
    · rw [insertPrecedenceEdgesFor, if_pos hins] at h1
      rcases List.mem_filterMap.mp h1 with ⟨out, ho, he⟩
      cases hg : dGet? (tableCreators qs) out with
      | none => rw [hg] at he; simp at he
      | some c =>
        rw [hg] at he
        simp at he
        rcases tableCreators_get hg with ⟨hc, _, _⟩
        constructor
        · rw [← he.1]
          exact List.mem_map_of_mem _ hc
        · rw [← he.2]
          exact List.mem_map_of_mem _ hq
    · rw [insertPrecedenceEdgesFor, if_neg hins] at h1
      simp at h1
  · rcases List.mem_filterMap.mp h2 with ⟨dep, hd, he⟩
    replace he : (match dGet? ps dep with
      | some p => if (qs.map (fun x => x.name)).contains p.name then
          some (p.name, q.name) else none
      | none => none) = some (a, b) := he
    cases hg : dGet? ps dep with
    | none => rw [hg] at he; simp at he
    | some p =>
      rw [hg] at he
      replace he : (if (qs.map (fun x => x.name)).contains p.name then
          some (p.name, q.name) else none) = some (a, b) := he
      by_cases hcn : ((qs.map (fun x => x.name)).contains p.name) = true
      · rw [if_pos hcn] at he
        have he' : (p.name, q.name) = (a, b) := by
          injection he
        have hea : p.name = a := ((Prod.mk.injEq _ _ _ _).mp he').1
        have heb : q.name = b := ((Prod.mk.injEq _ _ _ _).mp he').2
        constructor
        · rw [← hea]
          exact (contains_iff _ _).mp hcn
        · rw [← heb]
          exact List.mem_map_of_mem _ hq
      · rw [if_neg hcn] at he
        simp at he

theorem depEdge_mem {qs : List Query} {ps : List (String × Query)} {q p : Query}
    {t : String} (hq : q ∈ qs) (ht : t ∈ q.dependencies)
    (hp : dGet? ps t = some p) (hn : p.name ∈ qs.map (fun x => x.name)) :
    (p.name, q.name) ∈ localEdges qs ps := by
  simp only [localEdges]
  apply List.mem_flatMap.mpr
  refine ⟨q, hq, List.mem_append_right _ ?_⟩
  apply List.mem_filterMap.mpr
  refine ⟨t, ht, ?_⟩
  show (match dGet? ps t with
    | some p => if (qs.map (fun x => x.name)).contains p.name then
        some (p.name, q.name) else none
    | none => none) = some (p.name, q.name)
  rw [hp]
  show (if (qs.map (fun x => x.name)).contains p.name then
      some (p.name, q.name) else none) = some (p.name, q.name)
  rw [if_pos ((contains_iff _ _).mpr hn)]

theorem insEdge_mem {qs : List Query} {ps : List (String × Query)} {q c : Query}
    {t : String} (hq : q ∈ qs) (hins : hasINSERT q = true) (ht : t ∈ q.outputs)
    (hc : dGet? (tableCreators qs) t = some c) :
    (c.name, q.name) ∈ localEdges qs ps := by
  simp only [localEdges]
  apply List.mem_flatMap.mpr
  refine ⟨q, hq, List.mem_append_left _ ?_⟩
  rw [insertPrecedenceEdgesFor, if_pos hins]
  apply List.mem_filterMap.mpr
  refine ⟨t, ht, ?_⟩
  rw [hc]
  rfl

/-! ### Grouping by block -/

theorem mem_firstSeen (l : List String) (a : String) : a ∈ firstSeen l ↔ a ∈ l := by
  induction l with
  | nil => simp [firstSeen]
  | cons x xs ih =>
    simp only [firstSeen]
    constructor
    · intro h
      rcases List.mem_cons.mp h with h1 | h2
      · exact h1 ▸ List.mem_cons_self _ _
      · exact List.mem_cons_of_mem _ (ih.mp (List.mem_filter.mp h2).1)
    · intro h
      rcases List.mem_cons.mp h with h1 | h2
      · exact h1 ▸ List.mem_cons_self _ _
      · by_cases hx : a = x
        · exact hx ▸ List.mem_cons_self _ _
        · refine List.mem_cons_of_mem _ (List.mem_filter.mpr ⟨ih.mpr h2, ?_⟩)
          simp [hx]

theorem firstSeen_nodup (l : List String) : (firstSeen l).Nodup := by
  induction l with
  | nil => simp [firstSeen]
  | cons x xs ih =>
    simp only [firstSeen]
    apply List.Nodup.cons
    · intro hmem
      have := (List.mem_filter.mp hmem).2
      simp at this
    · exact List.Nodup.filter _ ih

theorem fm_congr {α β : Type} {f g : α → List β} :
    ∀ {l : List α}, (∀ a ∈ l, f a = g a) → l.flatMap f = l.flatMap g := by
  intro l
  induction l with
  | nil => intro _; rfl
  | cons x xs ih =>
    intro h
    simp only [List.flatMap_cons]
    rw [h x (List.mem_cons_self _ _), ih (fun a ha => h a (List.mem_cons_of_mem _ ha))]

theorem gather_perm :
    ∀ (ns : List String) (qs : List Query), ns.Nodup →
      (∀ q ∈ qs, q.block_name ∈ ns) →
      ((ns.flatMap (fun bn => qs.filter (fun q => q.block_name == bn))).Perm qs) := by
  intro ns
  induction ns with
  | nil =>
    intro qs _ hcov
    cases qs with
    | nil => simp
    | cons q rest => exact absurd (hcov q (List.mem_cons_self _ _)) (List.not_mem_nil _)
  | cons n rest ih =>
    intro qs hnd hcov
    simp only [List.flatMap_cons]
    have hne : ∀ bn ∈ rest, bn ≠ n := by
      intro bn hbn heq
      exact (List.nodup_cons.mp hnd).1 (heq ▸ hbn)
    have heq : rest.flatMap (fun bn => qs.filter (fun q => q.block_name == bn)) =
        rest.flatMap (fun bn =>
          (qs.filter (fun q => !(q.block_name == n))).filter
            (fun q => q.block_name == bn)) := by
      apply fm_congr
      intro bn hbn
      rw [List.filter_filter]
      apply List.filter_congr
      intro q _
      cases hq : ((q.block_name == bn) : Bool) with
      | false => rfl
      | true =>
        have : q.block_name = bn := by simpa using hq
        have : (q.block_name == n) = false := by
          simp [this, hne bn hbn]
        rw [this]
        rfl
    rw [heq]
    have hcov2 : ∀ q ∈ qs.filter (fun q => !(q.block_name == n)), q.block_name ∈ rest := by
      intro q hq
      have h1 := (List.mem_filter.mp hq).1
      have h2 := (List.mem_filter.mp hq).2
      rcases List.mem_cons.mp (hcov q h1) with h3 | h3
      · rw [h3] at h2
        simp at h2
      · exact h3
    have hperm := ih (qs.filter (fun q => !(q.block_name == n)))
      (List.nodup_cons.mp hnd).2 hcov2
    have := List.Perm.append_left (qs.filter (fun q => q.block_name == n)) hperm
    exact this.trans (List.filter_append_perm _ _)

theorem groupByBlock_flatten_perm (qs : List Query) :
    ((groupByBlock qs).flatMap (fun g => g.2)).Perm qs := by
  show (((firstSeen (qs.map (·.block_name))).map
      (fun bn => (bn, qs.filter (fun q => q.block_name == bn)))).flatMap
        (fun g => g.2)).Perm qs
  rw [List.flatMap_map]
  exact gather_perm _ qs (firstSeen_nodup _)
    (fun q hq => (mem_firstSeen _ _).mpr (List.mem_map_of_mem _ hq))

theorem groupByBlock_mem {qs : List Query} {g : String × List Query}
    (h : g ∈ groupByBlock qs) :
    g.2 = qs.filter (fun q => q.block_name == g.1) := by
  rcases List.mem_map.mp h with ⟨bn, _, he⟩
  rw [← he]

theorem buildPlan_blocks {qs : List Query} {plan : ExecutionPlan}
    (h : build_block_execution_plan qs = .ok plan) :
    List.Forall₂ (fun (g : String × List Query) (blk : Block) => blk.name = g.1 ∧
      create_parallel_batches_for_block g.2 (buildProducers qs) = .ok blk.batches)
      (groupByBlock qs) plan.blocks := by
  rw [build_block_execution_plan] at h
  by_cases hq : qs.isEmpty
  · rw [if_pos hq] at h
    have hqs : qs = [] := by
      cases qs with
      | nil => rfl
      | cons a b => simp at hq
    subst hqs
    have : plan = ⟨[]⟩ := by
      injection h with h'
      exact h'.symm
    subst this
    exact List.Forall₂.nil
  · rw [if_neg hq] at h
    replace h : (match exMapM
        (fun g => Except.map (fun bs => Block.mk g.1 bs)
          (create_parallel_batches_for_block g.2 (buildProducers qs)))
        (groupByBlock qs) with
      | Except.error e => Except.error e
      | Except.ok blocks => Except.ok (ExecutionPlan.mk blocks)) = Except.ok plan := h
    cases hm : exMapM
        (fun g => Except.map (fun bs => Block.mk g.1 bs)
          (create_parallel_batches_for_block g.2 (buildProducers qs)))
        (groupByBlock qs) with
    | error e => rw [hm] at h; exact absurd h (by simp)
    | ok blocks =>
      rw [hm] at h
      have hpl : plan = ⟨blocks⟩ := by
        injection h with h'
        exact h'.symm
      subst hpl
      have h2 := exMapM_ok_forall2 hm
      apply List.Forall₂.imp _ h2
      intro g blk hgb
      cases hc : create_parallel_batches_for_block g.2 (buildProducers qs) with
      | error e => rw [hc] at hgb; simp [Except.map] at hgb
      | ok bs =>
        rw [hc] at hgb
        simp [Except.map] at hgb
        rw [← hgb]
        exact ⟨rfl, rfl⟩

/-! ### Claim C1: every query lands in exactly one batch of one block -/

theorem fm_assoc {α β : Type} (l : List α) (f : α → List β) (g : β → List Query) :
    (l.flatMap f).flatMap g = l.flatMap (fun a => (f a).flatMap g) := by
  induction l with
  | nil => rfl
  | cons x xs ih =>
    simp only [List.flatMap_cons, List.flatMap_append, ih]

theorem forall2_flatMap_perm {α β : Type} {R : α → β → Prop}
    {f : α → List Query} {g : β → List Query}
    (h : ∀ a b, R a b → (g b).Perm (f a)) :
    ∀ {l1 : List α} {l2 : List β}, List.Forall₂ R l1 l2 →
      (l2.flatMap g).Perm (l1.flatMap f) := by
  intro l1 l2 hf
  induction hf with
  | nil => simp
  | cons hR _ ih =>
    simp only [List.flatMap_cons]
    exact List.Perm.append (h _ _ hR) ih

theorem countP_zero_of_count_flatMap {β : Type} (f : β → List Query) (q : Query) :
    ∀ l : List β, (l.flatMap f).count q = 0 →
      l.countP (fun b => decide (q ∈ f b)) = 0 := by
  intro l
  induction l with
  | nil => intro _; rfl
  | cons b rest ih =>
    intro h
    rw [List.flatMap_cons, List.count_append] at h
    have h1 : (f b).count q = 0 := by omega
    have h2 : (rest.flatMap f).count q = 0 := by omega
    rw [List.countP_cons, ih h2]
    have : q ∉ f b := List.count_eq_zero.mp h1
    simp [this]

theorem countP_one_of_count_flatMap {β : Type} (f : β → List Query) (q : Query) :
    ∀ l : List β, (l.flatMap f).count q = 1 →
      l.countP (fun b => decide (q ∈ f b)) = 1 := by
  intro l
  induction l with
  | nil => intro h; simp at h
  | cons b rest ih =>
    intro h
    rw [List.flatMap_cons, List.count_append] at h
    rw [List.countP_cons]
    by_cases hm : q ∈ f b
    · have h1 : 0 < (f b).count q := List.count_pos_iff.mpr hm
      have h2 : (rest.flatMap f).count q = 0 := by omega
      rw [countP_zero_of_count_flatMap f q rest h2]
      simp [hm]
    · have h1 : (f b).count q = 0 := List.count_eq_zero.mpr hm
      have h2 : (rest.flatMap f).count q = 1 := by omega
      rw [ih h2]
      simp [hm]

theorem allBatches_flatten (plan : ExecutionPlan) :
    (allBatches plan).flatMap (fun b => b.queries) = flattenPlan plan := by
  show (plan.blocks.flatMap (fun blk => blk.batches)).flatMap (fun b => b.queries) = _
  rw [fm_assoc]
  rfl

/-- C1: for a catalog with pairwise-distinct query names, a successfully
built `ExecutionPlan` holds a permutation of the input catalog (the union of
all batches of all blocks equals the input query set), and every input query
occurs in exactly one batch and in exactly one block. -/
theorem claim_C1_partition (qs : List Query) (plan : ExecutionPlan)
    (hnd : (qs.map (·.name)).Nodup)
    (hok : build_block_execution_plan qs = .ok plan) :
    (flattenPlan plan).Perm qs ∧
      (∀ q ∈ qs, (allBatches plan).countP (fun b => decide (q ∈ b.queries)) = 1) ∧
      (∀ q ∈ qs, plan.blocks.countP
        (fun blk => decide (q ∈ blk.batches.flatMap (fun b => b.queries))) = 1) := by
  have hf2 := buildPlan_blocks hok
  have hperm : (flattenPlan plan).Perm qs := by
    have h1 : (plan.blocks.flatMap (fun blk => flattenB blk.batches)).Perm
        ((groupByBlock qs).flatMap (fun g => g.2)) :=
      forall2_flatMap_perm (fun g blk hgb => kahn_perm _ _ _ _ _ hgb.2) hf2
    exact h1.trans (groupByBlock_flatten_perm qs)
  have hnodup : qs.Nodup := List.Nodup.of_map _ hnd
  refine ⟨hperm, ?_, ?_⟩
  · intro q hq
    have hcnt : ((allBatches plan).flatMap (fun b => b.queries)).count q = 1 := by
      rw [allBatches_flatten, List.Perm.count_eq hperm]
      exact List.count_eq_one_of_mem hnodup hq
    exact countP_one_of_count_flatMap _ q _ hcnt
  · intro q hq
    have hcnt : (plan.blocks.flatMap
        (fun blk => blk.batches.flatMap (fun b => b.queries))).count q = 1 := by
      rw [show plan.blocks.flatMap
          (fun blk => blk.batches.flatMap (fun b => b.queries)) = flattenPlan plan
        from rfl, List.Perm.count_eq hperm]
      exact List.count_eq_one_of_mem hnodup hq
    exact countP_one_of_count_flatMap _ q _ hcnt

/-- A three-query catalog over two blocks used as the concrete instance:
`a` creates table `t` in block `b1`, `b` reads `t` in block `b1`, and `c`
inserts into `t` in block `b2`. -/
def ceA : Query := ⟨"a", "CREATE TABLE t AS SELECT 1", [], ["t"], "b1", "c"⟩

def ceB : Query := ⟨"b", "SELECT * FROM t", ["t"], [], "b1", "c"⟩

def ceC : Query := ⟨"c", "INSERT INTO t VALUES (2)", [], ["t"], "b2", "c"⟩

/-- The plan the embedding computes on `[ceA, ceB, ceC]`. -/
def cePlan : ExecutionPlan := ⟨[⟨"b1", [⟨[ceA, ceB]⟩]⟩, ⟨"b2", [⟨[ceC]⟩]⟩]⟩

/-- Witness for C1 at the concrete three-query catalog. -/
theorem claim_C1_partition_witness :
    (flattenPlan cePlan).Perm [ceA, ceB, ceC] ∧
      (∀ q ∈ [ceA, ceB, ceC],
        (allBatches cePlan).countP (fun b => decide (q ∈ b.queries)) = 1) ∧
      (∀ q ∈ [ceA, ceB, ceC], cePlan.blocks.countP
        (fun blk => decide (q ∈ blk.batches.flatMap (fun b => b.queries))) = 1) :=
  claim_C1_partition [ceA, ceB, ceC] cePlan (by decide) rfl

/-! ### Claim C2: topological validity within a block -/

theorem batchAt_mem_flatten {q : Query} :
    ∀ {bs : List Batch} {j : Nat}, q ∈ batchAt bs j → q ∈ flattenB bs := by
  intro bs
  induction bs with
  | nil =>
    intro j h
    rw [batchAt_nil] at h
    simp at h
  | cons b rest ih =>
    intro j h
    cases j with
    | zero =>
      rw [batchAt_cons_zero] at h
      rw [flattenB_cons]
      exact List.mem_append_left _ h
    | succ j' =>
      rw [batchAt_cons_succ] at h
      rw [flattenB_cons]
      exact List.mem_append_right _ (ih h)

theorem eq_of_name_eq_of_nodup {l : List Query} (hnd : (l.map (·.name)).Nodup)
    {p q : Query} (hp : p ∈ l) (hq : q ∈ l) (hname : p.name = q.name) : p = q := by
  have hl : l.Nodup := List.Nodup.of_map _ hnd
  exact ((List.nodup_map_iff_inj_on hl).mp hnd) p hp q hq hname

/-- C2 (amended): in a successfully built plan, whenever the *retained*
producer of a table `t` (per the global producer map, after the INSERT
override) lies in the same block as a query that lists `t` among its
dependencies, the producer's batch index is strictly smaller than the
consumer's. -/
theorem claim_C2_producer_before_consumer (qs : List Query) (plan : ExecutionPlan)
    (hnd : (qs.map (·.name)).Nodup)
    (hok : build_block_execution_plan qs = .ok plan)
    (blk : Block) (hblk : blk ∈ plan.blocks)
    (t : String) (q1 q2 : Query)
    (hprod : dGet? (buildProducers qs) t = some q1)
    (hq1 : q1 ∈ flattenB blk.batches)
    (j2 : Nat) (hq2 : q2 ∈ batchAt blk.batches j2)
    (hdep : t ∈ q2.dependencies) :
    ∃ j1, j1 < j2 ∧ q1 ∈ batchAt blk.batches j1 := by
  have hf2 := buildPlan_blocks hok
  rcases forall2_mem_right hf2 blk hblk with ⟨g, hg, hgb⟩
  obtain ⟨hname, hcb⟩ := hgb
  have hql : g.2 = qs.filter (fun q => q.block_name == g.1) := groupByBlock_mem hg
  have hsubl : g.2.Sublist qs := by
    rw [hql]
    exact List.filter_sublist qs
  have hnd2 : (g.2.map (·.name)).Nodup :=
    List.Nodup.sublist (List.Sublist.map _ hsubl) hnd
  have hcb' : kahnLoop (localEdges g.2 (buildProducers qs)) g.2.length g.2
      (initDegs g.2 (localEdges g.2 (buildProducers qs))) = .ok blk.batches := hcb
  have hperm := kahn_perm _ _ _ _ _ hcb'
  have hq1l : q1 ∈ g.2 := hperm.mem_iff.mp hq1
  have hq2l : q2 ∈ g.2 := hperm.mem_iff.mp (batchAt_mem_flatten hq2)
  have hedge : (q1.name, q2.name) ∈ localEdges g.2 (buildProducers qs) :=
    depEdge_mem hq2l hdep hprod (List.mem_map_of_mem _ hq1l)
  have hsub : ∀ q ∈ g.2, q.name ∈ keys (initDegs g.2
      (localEdges g.2 (buildProducers qs))) := by
    intro q hq
    rw [initDegs_keys]
    exact List.mem_map_of_mem _ hq
  have hinv : ∀ q ∈ g.2, lookupInt (initDegs g.2
      (localEdges g.2 (buildProducers qs))) q.name =
      (((localEdges g.2 (buildProducers qs)).filter (fun e =>
        (g.2.map (fun x => x.name)).contains e.1 && e.2 == q.name)).length : Int) := by
    intro q hq
    rw [initDegs_lookup g.2 _ (List.mem_map_of_mem (·.name) hq)]
    have : (localEdges g.2 (buildProducers qs)).filter (fun e => e.2 == q.name) =
        (localEdges g.2 (buildProducers qs)).filter (fun e =>
          (g.2.map (fun x => x.name)).contains e.1 && e.2 == q.name) := by
      apply List.filter_congr
      intro e he
      have hsrc : e.1 ∈ g.2.map (fun x => x.name) := by
        have : (e.1, e.2) ∈ localEdges g.2 (buildProducers qs) := by
          convert he
        exact (localEdges_mem this).1
      rw [(contains_iff _ _).mpr hsrc]
      rfl
    rw [this]
  have horder := kahn_order (localEdges g.2 (buildProducers qs)) g.2.length g.2
    (initDegs g.2 (localEdges g.2 (buildProducers qs))) blk.batches hcb'
    hsub hinv q1.name q2.name hedge (List.mem_map_of_mem _ hq1l) j2 q2 hq2 rfl
  obtain ⟨i, hi, p, hp, hpname⟩ := horder
  have hfn : ((flattenB blk.batches).map (·.name)).Nodup := by
    have := (hperm.map (·.name)).nodup_iff
    exact this.mpr hnd2
  have hpe : p = q1 :=
    eq_of_name_eq_of_nodup hfn (batchAt_mem_flatten hp) hq1 hpname
  exact ⟨i, hi, hpe ▸ hp⟩

/-- C2, as stated in the claim ("one produces a table the other depends
on"), is false of the code: the batching only adds an edge from the
*retained* producer, so a producer overridden by an INSERT query in another
block can land in the same batch as its consumer.  In `[ceA, ceB, ceC]`,
`ceA` produces `t` and `ceB` depends on `t` in block `b1`, but the retained
producer of `t` is `ceC` (block `b2`), so `ceA` and `ceB` share batch 0. -/
theorem claim_C2_counterexample :
    ¬ (∀ (qs : List Query) (plan : ExecutionPlan),
      (qs.map (·.name)).Nodup →
      build_block_execution_plan qs = .ok plan →
      ∀ blk ∈ plan.blocks, ∀ (t : String) (q1 q2 : Query),
        q1 ∈ flattenB blk.batches → t ∈ q1.outputs → t ∈ q2.dependencies →
        ∀ j2, q2 ∈ batchAt blk.batches j2 →
        ∃ j1, j1 < j2 ∧ q1 ∈ batchAt blk.batches j1) := by
  intro hall
  have h := hall [ceA, ceB, ceC] cePlan (by decide) rfl
    ⟨"b1", [⟨[ceA, ceB]⟩]⟩ (by decide) "t" ceA ceB
    (by decide) (by decide) (by decide) 0 (by decide)
  obtain ⟨j1, hj1, _⟩ := h
  exact absurd hj1 (Nat.not_lt_zero j1)

/-- Single-block catalog whose dependency forces two batches. -/
def wA : Query := ⟨"wa", "CREATE TABLE t AS SELECT 1", [], ["t"], "blk", "c"⟩

def wB : Query := ⟨"wb", "SELECT * FROM t", ["t"], [], "blk", "c"⟩

/-- The plan the embedding computes on `[wA, wB]`. -/
def wPlan : ExecutionPlan := ⟨[⟨"blk", [⟨[wA]⟩, ⟨[wB]⟩]⟩]⟩

/-- Witness for the amended C2 at a concrete two-query block. -/
theorem claim_C2_producer_before_consumer_witness :
    ∃ j1, j1 < 1 ∧ wA ∈ batchAt (Block.mk "blk" [⟨[wA]⟩, ⟨[wB]⟩]).batches j1 :=
  claim_C2_producer_before_consumer [wA, wB] wPlan (by decide) rfl
    ⟨"blk", [⟨[wA]⟩, ⟨[wB]⟩]⟩ (by decide) "t" wA wB rfl (by decide) 1 (by decide)
    (by decide)

/-! ### Claim C6: the CREATE+INSERT self-edge -/

theorem exists_batchAt_of_mem_flatten {q : Query} :
    ∀ {bs : List Batch}, q ∈ flattenB bs → ∃ j, q ∈ batchAt bs j := by
  intro bs
  induction bs with
  | nil => intro h; simp [flattenB] at h
  | cons b rest ih =>
    intro h
    rw [flattenB_cons] at h
    rcases List.mem_append.mp h with h1 | h2
    · exact ⟨0, by rw [batchAt_cons_zero]; exact h1⟩
    · rcases ih h2 with ⟨j, hj⟩
      exact ⟨j + 1, by rw [batchAt_cons_succ]; exact hj⟩

theorem batchAt_disjoint {q : Query} :
    ∀ {bs : List Batch}, (flattenB bs).Nodup →
      ∀ {i j : Nat}, i < j → q ∈ batchAt bs i → q ∈ batchAt bs j → False := by
  intro bs
  induction bs with
  | nil =>
    intro _ i j _ hi _
    rw [batchAt_nil] at hi
    simp at hi
  | cons b rest ih =>
    intro hnd i j hij hi hj
    rw [flattenB_cons] at hnd
    cases i with
    | zero =>
      cases j with
      | zero => exact absurd hij (by omega)
      | succ j' =>
        rw [batchAt_cons_zero] at hi
        rw [batchAt_cons_succ] at hj
        exact (List.nodup_append.mp hnd).2.2 hi (batchAt_mem_flatten hj)
    | succ i' =>
      cases j with
      | zero => exact absurd hij (by omega)
      | succ j' =>
        rw [batchAt_cons_succ] at hi hj
        exact ih (List.nodup_append.mp hnd).2.1 (by omega) hi hj

/-- Standard application of `kahn_order` at the entry point of the batching
routine: an edge of the local graph forces a strictly earlier batch for its
source. -/
theorem batches_order {blockQueries : List Query} {producers : List (String × Query)}
    {bs : List Batch}
    (hok : create_parallel_batches_for_block blockQueries producers = .ok bs)
    {a b : String} (hedge : (a, b) ∈ localEdges blockQueries producers)
    (ha : a ∈ blockQueries.map (fun x => x.name)) :
    ∀ j q2, q2 ∈ batchAt bs j → q2.name = b →
      ∃ i, i < j ∧ ∃ p, p ∈ batchAt bs i ∧ p.name = a := by
  have hcb' : kahnLoop (localEdges blockQueries producers) blockQueries.length
      blockQueries (initDegs blockQueries (localEdges blockQueries producers)) =
      .ok bs := hok
  have hsub : ∀ q ∈ blockQueries, q.name ∈ keys (initDegs blockQueries
      (localEdges blockQueries producers)) := by
    intro q hq
    rw [initDegs_keys]
    exact List.mem_map_of_mem _ hq
  have hinv : ∀ q ∈ blockQueries, lookupInt (initDegs blockQueries
      (localEdges blockQueries producers)) q.name =
      (((localEdges blockQueries producers).filter (fun e =>
        (blockQueries.map (fun x => x.name)).contains e.1 &&
          e.2 == q.name)).length : Int) := by
    intro q hq
    rw [initDegs_lookup blockQueries _ (List.mem_map_of_mem (·.name) hq)]
    have : (localEdges blockQueries producers).filter (fun e => e.2 == q.name) =
        (localEdges blockQueries producers).filter (fun e =>
          (blockQueries.map (fun x => x.name)).contains e.1 && e.2 == q.name) := by
      apply List.filter_congr
      intro e he
      have hsrc : e.1 ∈ blockQueries.map (fun x => x.name) := by
        have hmem : (e.1, e.2) ∈ localEdges blockQueries producers := by
          convert he
        exact (localEdges_mem hmem).1
      rw [(contains_iff _ _).mpr hsrc]
      rfl
    rw [this]
  exact kahn_order _ _ _ _ _ hcb' hsub hinv a b hedge ha

/-- C6: a query whose SQL contains both `CREATE` and `INSERT` and that is the
block's retained creator of one of its own output tables receives a
precedence edge from itself to itself, so batching that block — and hence
`build_block_execution_plan` on any catalog in which this block occurs —
always fails with the circular-dependency error, even though no cycle among
distinct queries exists. -/
theorem claim_C6_self_edge (blockQueries : List Query)
    (producers : List (String × Query)) (q : Query) (t : String)
    (hq : q ∈ blockQueries)
    (hnd : (blockQueries.map (·.name)).Nodup)
    (hins : hasINSERT q = true)
    (ht : t ∈ q.outputs)
    (hc : dGet? (tableCreators blockQueries) t = some q) :
    (q.name, q.name) ∈ localEdges blockQueries producers ∧
      (∃ msg, create_parallel_batches_for_block blockQueries producers =
        .error msg) ∧
      (∀ (qs : List Query) (bn : String),
        producers = buildProducers qs → (bn, blockQueries) ∈ groupByBlock qs →
        ∃ msg2, build_block_execution_plan qs = .error msg2) := by
  have hedge : (q.name, q.name) ∈ localEdges blockQueries producers :=
    insEdge_mem hq hins ht hc
  have herr : ∃ msg, create_parallel_batches_for_block blockQueries producers =
      .error msg := by
    cases hres : create_parallel_batches_for_block blockQueries producers with
    | error msg => exact ⟨msg, rfl⟩
    | ok bs =>
      exfalso
      have hcb' : kahnLoop (localEdges blockQueries producers) blockQueries.length
          blockQueries (initDegs blockQueries
            (localEdges blockQueries producers)) = .ok bs := hres
      have hperm := kahn_perm _ _ _ _ _ hcb'
      have hqf : q ∈ flattenB bs := hperm.mem_iff.mpr hq
      obtain ⟨j, hj⟩ := exists_batchAt_of_mem_flatten hqf
      obtain ⟨i, hi, p, hp, hpn⟩ :=
        batches_order hres hedge (List.mem_map_of_mem _ hq) j q hj rfl
      have hfn : ((flattenB bs).map (·.name)).Nodup :=
        (hperm.map (·.name)).nodup_iff.mpr hnd
      have hpe : p = q :=
        eq_of_name_eq_of_nodup hfn (batchAt_mem_flatten hp) hqf hpn
      subst hpe
      exact batchAt_disjoint (List.Nodup.of_map _ hfn) hi hp hj
  refine ⟨hedge, herr, ?_⟩
  intro qs bn hps hgmem
  obtain ⟨msg, hmsg⟩ := herr
  have hq0 : qs.isEmpty = false := by
    cases hqs : qs with
    | nil =>
      subst hqs
      simp [groupByBlock, firstSeen] at hgmem
    | cons x xs => rfl
  have hfma : (fun (g : String × List Query) =>
      Except.map (fun bs => Block.mk g.1 bs)
        (create_parallel_batches_for_block g.2 (buildProducers qs)))
      (bn, blockQueries) = .error msg := by
    show Except.map _ (create_parallel_batches_for_block blockQueries
      (buildProducers qs)) = _
    rw [← hps, hmsg]
    rfl
  obtain ⟨m2, hm2⟩ := @exMapM_error_of_mem (String × List Query) Block
    (fun g => Except.map (fun bs => Block.mk g.1 bs)
      (create_parallel_batches_for_block g.2 (buildProducers qs)))
    (groupByBlock qs) (bn, blockQueries) msg hgmem hfma
  refine ⟨m2, ?_⟩
  rw [build_block_execution_plan, if_neg (by rw [hq0]; simp)]
  show (match exMapM
      (fun g => Except.map (fun bs => Block.mk g.1 bs)
        (create_parallel_batches_for_block g.2 (buildProducers qs)))
      (groupByBlock qs) with
    | Except.error e => Except.error e
    | Except.ok blocks => Except.ok (ExecutionPlan.mk blocks)) = Except.error m2
  rw [hm2]

/-- A query whose SQL holds both a CREATE and an INSERT aimed at its own
output table. -/
def swQ : Query :=
  ⟨"w", "CREATE TABLE t (x INT); INSERT INTO t VALUES (1)", [], ["t"], "b1", "c"⟩

/-- Witness for C6 at the concrete single-query block. -/
theorem claim_C6_self_edge_witness :
    (swQ.name, swQ.name) ∈ localEdges [swQ] (buildProducers [swQ]) ∧
      (∃ msg, create_parallel_batches_for_block [swQ] (buildProducers [swQ]) =
        .error msg) ∧
      (∀ (qs : List Query) (bn : String),
        buildProducers [swQ] = buildProducers qs →
        (bn, [swQ]) ∈ groupByBlock qs →
        ∃ msg2, build_block_execution_plan qs = .error msg2) :=
  claim_C6_self_edge [swQ] (buildProducers [swQ]) swQ "t" (by decide) (by decide)
    (by decide) (by decide) rfl

/-! ### Claim C4: the circular-dependency error and its contents -/

theorem charsStartWith_append_right {s p : List Char} (r : List Char)
    (h : charsStartWith s p = true) : charsStartWith (s ++ r) p = true := by
  induction p generalizing s with
  | nil => cases s ++ r <;> rfl
  | cons c cs ih =>
    cases s with
    | nil => simp [charsStartWith] at h
    | cons x xs =>
      simp only [charsStartWith, Bool.and_eq_true] at h
      simp only [List.cons_append, charsStartWith, Bool.and_eq_true]
      exact ⟨h.1, ih h.2⟩

theorem charsContain_append_right {p s : List Char} (r : List Char)
    (h : charsContain p s = true) : charsContain p (s ++ r) = true := by
  induction s with
  | nil =>
    cases p with
    | nil => exact charsContain_nil_pat r
    | cons c cs => simp [charsContain, charsStartWith] at h
  | cons x xs ih =>
    simp only [charsContain, Bool.or_eq_true] at h
    rcases h with h | h
    · simp only [List.cons_append, charsContain, Bool.or_eq_true]
      exact Or.inl (charsStartWith_append_right r h)
    · simp only [List.cons_append, charsContain, Bool.or_eq_true]
      exact Or.inr (ih h)

theorem strContains_of_mem_parts (x y sep : String) {l : List String} {a : String}
    (h : a ∈ l) : strContains (x ++ pyJoin sep l ++ y) a = true := by
  have h1 : charsContain a.data (pyJoin sep l).data = true := strContains_join_mem sep h
  have h2 : charsContain a.data ((pyJoin sep l).data ++ y.data) = true :=
    charsContain_append_right _ h1
  have h3 : charsContain a.data (x.data ++ ((pyJoin sep l).data ++ y.data)) = true :=
    charsContain_append_left _ h2
  show charsContain a.data (x ++ pyJoin sep l ++ y).data = true
  have : (x ++ pyJoin sep l ++ y).data = x.data ++ ((pyJoin sep l).data ++ y.data) := by
    simp [strData_append]
  rw [this]
  exact h3

/-- C4 (amended): whenever, during batching of a block, no query with
remaining local in-degree zero exists while some queries of the block are
still unplaced, the loop fails with the circular-dependency `UserException`,
and the error's content names every still-unplaced query.  (The unresolved
dependencies are written to the log only; the counterexample shows they are
not part of the error content.) -/
theorem claim_C4_circular_error (edges : List (String × String)) (fuel : Nat)
    (rem : List Query) (degs : List (String × Int))
    (hne : rem ≠ [])
    (hstuck : readyOf degs rem = []) :
    kahnLoop edges (fuel + 1) rem degs = .error (circularMsg rem) ∧
      ∀ q ∈ rem, strContains (circularMsg rem) q.name = true := by
  constructor
  · cases rem with
    | nil => exact absurd rfl hne
    | cons q rest =>
      rw [show kahnLoop edges (fuel + 1) (q :: rest) degs =
          (if (readyOf degs (q :: rest)).isEmpty
           then .error (circularMsg (q :: rest))
           else
             match kahnLoop edges fuel
                 (removeReady ((readyOf degs (q :: rest)).map (·.name)) (q :: rest))
                 (decEdges edges ((readyOf degs (q :: rest)).map (·.name)) degs) with
             | .error e => .error e
             | .ok bs => .ok (⟨readyOf degs (q :: rest)⟩ :: bs)) from rfl]
      rw [if_pos (by rw [hstuck]; rfl)]
  · intro q hq
    show strContains ("Circular dependency detected among queries in block: " ++
      pyJoin ", " (rem.map (·.name)) ++ ". Check your SQL dependencies.") q.name = true
    exact strContains_of_mem_parts _ _ _ (List.mem_map_of_mem _ hq)

/-- Two mutually dependent CREATE queries in one block. -/
def cyA : Query :=
  ⟨"alpha", "CREATE TABLE out_alpha AS SELECT * FROM out_beta",
    ["out_beta"], ["out_alpha"], "b1", "c"⟩

/-- Second half of the concrete two-query cycle. -/
def cyB : Query :=
  ⟨"beta", "CREATE TABLE out_beta AS SELECT * FROM out_alpha",
    ["out_alpha"], ["out_beta"], "b1", "c"⟩

/-- C4 counterexample: on the concrete cyclic pair, the raised error's
content names both still-unplaced queries (`alpha`, `beta`) but does *not*
name their unresolved dependencies (`out_alpha`, `out_beta`): the claim that
the error content names every unplaced query *and its unresolved
dependencies* is false of the code, which only logs the dependencies. -/
theorem claim_C4_counterexample :
    build_block_execution_plan [cyA, cyB] = .error
      ("Circular dependency detected among queries in block: alpha, beta. " ++
        "Check your SQL dependencies.") ∧
      strContains ("Circular dependency detected among queries in block: " ++
        "alpha, beta. Check your SQL dependencies.") "alpha" = true ∧
      strContains ("Circular dependency detected among queries in block: " ++
        "alpha, beta. Check your SQL dependencies.") "beta" = true ∧
      strContains ("Circular dependency detected among queries in block: " ++
        "alpha, beta. Check your SQL dependencies.") "out_alpha" = false ∧
      strContains ("Circular dependency detected among queries in block: " ++
        "alpha, beta. Check your SQL dependencies.") "out_beta" = false := by
  refine ⟨?_, ?_, ?_, ?_, ?_⟩ <;> rfl

/-- Witness for the amended C4 at a concrete stuck state. -/
theorem claim_C4_circular_error_witness :
    kahnLoop [] 1 [cyA] [("alpha", (1 : Int))] = .error (circularMsg [cyA]) ∧
      ∀ q ∈ [cyA], strContains (circularMsg [cyA]) q.name = true :=
  claim_C4_circular_error [] 0 [cyA] [("alpha", (1 : Int))] (by decide) rfl

/-! ### Claim C5: producer precedence in the global producer map -/

/-- The queries that write table `t`, in catalog order. -/
def writersOf (t : String) (qs : List Query) : List Query :=
  qs.filter (fun q => q.outputs.contains t)

theorem getLast?_mem {α : Type} {a : α} :
    ∀ {l : List α}, l.getLast? = some a → a ∈ l := by
  intro l
  induction l with
  | nil => intro h; simp at h
  | cons x xs ih =>
    intro h
    cases xs with
    | nil =>
      simp at h
      exact h ▸ List.mem_cons_self _ _
    | cons y ys =>
      rw [List.getLast?_cons_cons] at h
      exact List.mem_cons_of_mem _ (ih h)

theorem dGet?_applyUpd {α : Type} (k : String) :
    ∀ (us : List (String × α)) (d : List (String × α)),
      dGet? (applyUpd d us) k =
        (match us.reverse.find? (fun u => u.1 == k) with
        | some u => some u.2
        | none => dGet? d k) := by
  intro us
  induction us with
  | nil => intro d; rfl
  | cons u rest ih =>
    intro d
    show dGet? (applyUpd (dUpdate d u.1 u.2) rest) k = _
    rw [ih, List.reverse_cons, List.find?_append]
    cases hf : rest.reverse.find? (fun p => p.1 == k) with
    | some v => rfl
    | none =>
      show dGet? (dUpdate d u.1 u.2) k =
        (match Option.or none (List.find? (fun u => u.1 == k) [u]) with
        | some u => some u.2
        | none => dGet? d k)
      by_cases hk : u.1 = k
      · have : List.find? (fun p => p.1 == k) [u] = some u :=
          List.find?_cons_of_pos _ (by simp [hk])
        rw [this]
        show dGet? (dUpdate d u.1 u.2) k = some u.2
        rw [← hk]
        exact dGet?_dUpdate_self d u.1 u.2
      · have : List.find? (fun p => p.1 == k) [u] = none :=
          List.find?_cons_of_neg _ (by simp [hk])
        rw [this]
        show dGet? (dUpdate d u.1 u.2) k = dGet? d k
        exact dGet?_dUpdate_ne d u.2 (fun hh => hk hh.symm)

theorem find?_beq_self : ∀ (l : List String) (t : String), t ∈ l →
    l.find? (fun x => x == t) = some t := by
  intro l
  induction l with
  | nil => intro t h; simp at h
  | cons x xs ih =>
    intro t h
    by_cases hx : x = t
    · subst hx
      exact List.find?_cons_of_pos _ (by simp)
    · rw [List.find?_cons_of_neg _ (by simp [hx])]
      rcases List.mem_cons.mp h with h1 | h2
      · exact absurd h1.symm hx
      · exact ih t h2

theorem events_reverse_find (t : String) :
    ∀ qs : List Query,
      ((outputEvents qs).reverse.find? (fun u => u.1 == t)) =
        ((writersOf t qs).getLast?).map (fun q => (t, q)) := by
  intro qs
  induction qs with
  | nil => rfl
  | cons q rest ih =>
    rw [show outputEvents (q :: rest) =
        q.outputs.map (fun tt => (tt, q)) ++ outputEvents rest from rfl]
    rw [List.reverse_append, List.find?_append, ih]
    rw [show writersOf t (q :: rest) =
        (if q.outputs.contains t = true then q :: writersOf t rest
         else writersOf t rest) from by
      simp only [writersOf, List.filter_cons]]
    by_cases hmem : q.outputs.contains t = true
    · rw [if_pos hmem]
      have hfind : ((q.outputs.map (fun tt => (tt, q))).reverse.find?
          (fun u => u.1 == t)) = some (t, q) := by
        rw [← List.map_reverse, List.find?_map]
        show ((q.outputs.reverse.find? (fun tt => tt == t)).map
          (fun tt => (tt, q))) = some (t, q)
        rw [find?_beq_self q.outputs.reverse t
          (List.mem_reverse.mpr ((contains_iff _ _).mp hmem))]
        rfl
      rw [hfind]
      rw [show (q :: writersOf t rest) = [q] ++ writersOf t rest from rfl,
        List.getLast?_append]
      cases hfr : (writersOf t rest).getLast? with
      | none => simp
      | some qlast => simp
    · rw [if_neg hmem]
      have hfind : ((q.outputs.map (fun tt => (tt, q))).reverse.find?
          (fun u => u.1 == t)) = none := by
        apply List.find?_eq_none.mpr
        intro x hx
        rcases List.mem_map.mp (List.mem_reverse.mp hx) with ⟨tt, htt, he⟩
        intro hbeq
        rw [← he] at hbeq
        have htteq : tt = t := by simpa using hbeq
        subst htteq
        exact hmem ((contains_iff _ _).mpr htt)
      rw [hfind, Option.or_none]

theorem dGet?_producersAll (qs : List Query) (t : String) :
    dGet? (producersAll qs) t = (writersOf t qs).getLast? := by
  show dGet? (applyUpd [] (outputEvents qs)) t = _
  rw [dGet?_applyUpd, events_reverse_find]
  cases hfr : (writersOf t qs).getLast? with
  | none => rfl
  | some qlast => rfl

theorem dGet?_insert_producers (qs : List Query) (t : String) :
    dGet? (insert_producers qs) t =
      (writersOf t (qs.filter (fun q => !hasCREATE q && hasINSERT q))).getLast? :=
  dGet?_producersAll (qs.filter (fun q => !hasCREATE q && hasINSERT q)) t

theorem dUpdate_keys {α : Type} (k : String) (v : α) :
    ∀ d : List (String × α), keys (dUpdate d k v) =
      if k ∈ keys d then keys d else keys d ++ [k] := by
  intro d
  induction d with
  | nil => simp [dUpdate, keys]
  | cons p rest ih =>
    by_cases hp : p.1 = k
    · simp only [dUpdate, if_pos hp, keys, List.map_cons]
      rw [if_pos]
      · simp [hp]
      · rw [hp]
        exact List.mem_cons_self _ _
    · simp only [dUpdate, if_neg hp, keys, List.map_cons] at ih ⊢
      rw [ih]
      by_cases hk : k ∈ rest.map Prod.fst
      · rw [if_pos hk, if_pos (List.mem_cons_of_mem _ hk)]
      · rw [if_neg hk, if_neg]
        · rfl
        · intro hc
          rcases List.mem_cons.mp hc with h1 | h2
          · exact hp h1.symm
          · exact hk h2

theorem dUpdate_keys_nodup {α : Type} {d : List (String × α)} (k : String) (v : α)
    (h : (keys d).Nodup) : (keys (dUpdate d k v)).Nodup := by
  rw [dUpdate_keys]
  by_cases hk : k ∈ keys d
  · rw [if_pos hk]; exact h
  · rw [if_neg hk]
    rw [List.nodup_append]
    exact ⟨h, List.nodup_singleton _, by simpa using hk⟩

theorem applyUpd_keys_nodup {α : Type} :
    ∀ (us : List (String × α)) (d : List (String × α)),
      (keys d).Nodup → (keys (applyUpd d us)).Nodup := by
  intro us
  induction us with
  | nil => intro d h; exact h
  | cons u rest ih =>
    intro d h
    exact ih _ (dUpdate_keys_nodup u.1 u.2 h)

theorem find?_reverse_of_keysNodup {α : Type} (t : String) :
    ∀ {d : List (String × α)}, (keys d).Nodup →
      d.reverse.find? (fun p => p.1 == t) = d.find? (fun p => p.1 == t) := by
  intro d
  induction d with
  | nil => intro _; rfl
  | cons p rest ih =>
    intro h
    have h' : (p.1 :: keys rest).Nodup := h
    rw [List.reverse_cons, List.find?_append]
    by_cases hp : p.1 = t
    · have hnone : rest.reverse.find? (fun p => p.1 == t) = none := by
        apply List.find?_eq_none.mpr
        intro x hx hbeq
        have hxt : x.1 = t := by simpa using hbeq
        apply (List.nodup_cons.mp h').1
        rw [hp, ← hxt]
        exact List.mem_map_of_mem _ (List.mem_reverse.mp hx)
      rw [hnone,
        List.find?_cons_of_pos rest (show ((p.1 == t) : Bool) = true by simp [hp]),
        List.find?_cons_of_pos ([] : List (String × α))
          (show ((p.1 == t) : Bool) = true by simp [hp])]
      rfl
    · rw [List.find?_cons_of_neg rest (show ¬((p.1 == t) : Bool) = true by simp [hp]),
        List.find?_cons_of_neg ([] : List (String × α))
          (show ¬((p.1 == t) : Bool) = true by simp [hp])]
      show (rest.reverse.find? (fun p => p.1 == t)).or
        (List.find? (fun p => p.1 == t) []) = _
      rw [show List.find? (fun (p : String × α) => p.1 == t) [] = none from rfl,
        Option.or_none]
      exact ih (List.nodup_cons.mp h').2

theorem dGet?_eq_find?_map {α : Type} (t : String) :
    ∀ d : List (String × α),
      dGet? d t = (d.find? (fun p => p.1 == t)).map Prod.snd := by
  intro d
  induction d with
  | nil => rfl
  | cons p rest ih =>
    by_cases hp : p.1 = t
    · rw [List.find?_cons_of_pos _ (by simp [hp])]
      show (if p.1 = t then some p.2 else dGet? rest t) = some p.2
      rw [if_pos hp]
    · rw [List.find?_cons_of_neg _ (by simp [hp])]
      show (if p.1 = t then some p.2 else dGet? rest t) = _
      rw [if_neg hp]
      exact ih

theorem dGet?_buildProducers (qs : List Query) (t : String) :
    dGet? (buildProducers qs) t =
      (match dGet? (insert_producers qs) t with
      | some v => some v
      | none => dGet? (producersAll qs) t) := by
  have hnd : (keys (insert_producers qs)).Nodup :=
    applyUpd_keys_nodup _ [] (by simp [keys])
  show dGet? (applyUpd (producersAll qs) (insert_producers qs)) t = _
  rw [dGet?_applyUpd, find?_reverse_of_keysNodup t hnd]
  rw [dGet?_eq_find?_map t (insert_producers qs)]
  cases hf : (insert_producers qs).find? (fun p => p.1 == t) with
  | none => rfl
  | some v => rfl

/-- C5: (a) when a table is written both by a `CREATE`-classified query and
by a different `INSERT`-classified query (the source's `elif`: `INSERT` but
not `CREATE` in the SQL), the retained producer is the last
`INSERT`-classified writer in catalog order; (b)/(c) when all writers of the
table are of the same classification, the last writer in catalog order is
retained. -/
theorem claim_C5_producer_precedence (qs : List Query) (t : String) :
    ((∃ qc ∈ qs, hasCREATE qc = true ∧ t ∈ qc.outputs) →
      (∃ qi ∈ qs, (!hasCREATE qi && hasINSERT qi) = true ∧ t ∈ qi.outputs) →
      dGet? (buildProducers qs) t =
        (writersOf t (qs.filter (fun q => !hasCREATE q && hasINSERT q))).getLast? ∧
      ∃ qr, dGet? (buildProducers qs) t = some qr ∧
        (!hasCREATE qr && hasINSERT qr) = true ∧ t ∈ qr.outputs) ∧
    ((∀ q ∈ writersOf t qs, hasCREATE q = true) →
      dGet? (buildProducers qs) t = (writersOf t qs).getLast?) ∧
    ((∀ q ∈ writersOf t qs, (!hasCREATE q && hasINSERT q) = true) →
      dGet? (buildProducers qs) t = (writersOf t qs).getLast?) := by
  have hfi : writersOf t (qs.filter (fun q => !hasCREATE q && hasINSERT q)) =
      (writersOf t qs).filter (fun q => !hasCREATE q && hasINSERT q) := by
    show (qs.filter (fun q => !hasCREATE q && hasINSERT q)).filter
        (fun q => q.outputs.contains t) =
      (qs.filter (fun q => q.outputs.contains t)).filter
        (fun q => !hasCREATE q && hasINSERT q)
    rw [List.filter_filter, List.filter_filter]
    apply List.filter_congr
    intro q _
    rw [Bool.and_comm]
  refine ⟨?_, ?_, ?_⟩
  · rintro ⟨qc, hqc, hcr, hct⟩ ⟨qi, hqi, hik, hit⟩
    have hmem : qi ∈ writersOf t
        (qs.filter (fun q => !hasCREATE q && hasINSERT q)) := by
      rw [hfi]
      exact List.mem_filter.mpr ⟨List.mem_filter.mpr
        ⟨hqi, (contains_iff _ _).mpr hit⟩, hik⟩
    have hne : writersOf t (qs.filter (fun q => !hasCREATE q && hasINSERT q)) ≠ [] :=
      List.ne_nil_of_mem hmem
    cases hlast : (writersOf t
        (qs.filter (fun q => !hasCREATE q && hasINSERT q))).getLast? with
    | none => exact absurd (List.getLast?_eq_none_iff.mp hlast) hne
    | some qr =>
      have hip : dGet? (insert_producers qs) t = some qr := by
        rw [dGet?_insert_producers, hlast]
      have heq : dGet? (buildProducers qs) t = some qr := by
        rw [dGet?_buildProducers, hip]
      have hqrmem := getLast?_mem hlast
      rw [hfi] at hqrmem
      refine ⟨heq, qr, heq, (List.mem_filter.mp hqrmem).2, ?_⟩
      exact (contains_iff _ _).mp
        (List.mem_filter.mp (List.mem_filter.mp hqrmem).1).2
  · intro hall
    have hnil : writersOf t (qs.filter (fun q => !hasCREATE q && hasINSERT q)) = [] := by
      rw [hfi]
      apply List.filter_eq_nil_iff.mpr
      intro q hq
      rw [hall q hq]
      simp
    have hip : dGet? (insert_producers qs) t = none := by
      rw [dGet?_insert_producers, hnil]
      rfl
    rw [dGet?_buildProducers, hip]
    exact dGet?_producersAll qs t
  · intro hall
    have hself : writersOf t (qs.filter (fun q => !hasCREATE q && hasINSERT q)) =
        writersOf t qs := by
      rw [hfi]
      exact List.filter_eq_self.mpr hall
    have hip : dGet? (insert_producers qs) t = (writersOf t qs).getLast? := by
      rw [dGet?_insert_producers, hself]
    rw [dGet?_buildProducers, hip]
    cases hlast : (writersOf t qs).getLast? with
    | none =>
      show dGet? (producersAll qs) t = none
      rw [dGet?_producersAll qs t, hlast]
    | some v => rfl

/-- Witness for C5: part (a) at `[ceA, ceB, ceC]` (CREATE writer `ceA`,
INSERT writer `ceC` of table `t`), part (b) at `[wA, wB]` (only a CREATE
writer), part (c) at `[ceC]` (only an INSERT writer). -/
theorem claim_C5_producer_precedence_witness :
    (dGet? (buildProducers [ceA, ceB, ceC]) "t" =
      (writersOf "t" ([ceA, ceB, ceC].filter
        (fun q => !hasCREATE q && hasINSERT q))).getLast? ∧
      ∃ qr, dGet? (buildProducers [ceA, ceB, ceC]) "t" = some qr ∧
        (!hasCREATE qr && hasINSERT qr) = true ∧ "t" ∈ qr.outputs) ∧
    dGet? (buildProducers [wA, wB]) "t" = (writersOf "t" [wA, wB]).getLast? ∧
    dGet? (buildProducers [ceC]) "t" = (writersOf "t" [ceC]).getLast? :=
  ⟨(claim_C5_producer_precedence [ceA, ceB, ceC] "t").1
      ⟨ceA, by decide, by decide, by decide⟩ ⟨ceC, by decide, by decide, by decide⟩,
    (claim_C5_producer_precedence [wA, wB] "t").2.1 (by decide),
    (claim_C5_producer_precedence [ceC] "t").2.2 (by decide)⟩

/-! ### Claim C8: only same-block retained producers contribute edges -/

/-- Drop the dependencies whose retained producer does not belong to the
block (cross-block producers and tables produced by no query). -/
def restrictDeps (producers : List (String × Query)) (names : List String)
    (q : Query) : Query :=
  { q with dependencies := q.dependencies.filter (fun t =>
      match dGet? producers t with
      | some p => names.contains p.name
      | none => false) }

/-- Batch lists up to query names (errors kept verbatim). -/
def projBatches (r : Except String (List Batch)) :
    Except String (List (List String)) :=
  Except.map (fun bs => bs.map (fun b => b.queries.map (fun q => q.name))) r

theorem projBatches_error {r : Except String (List Batch)} {e : String} :
    projBatches r = .error e ↔ r = .error e := by
  cases r with
  | error e' => simp [projBatches, Except.map]
  | ok bs => simp [projBatches, Except.map]

theorem depEdgesFor_mem (producers : List (String × Query)) (names : List String)
    (q : Query) (a b : String) :
    (a, b) ∈ depEdgesFor producers names q ↔
      ∃ t ∈ q.dependencies, ∃ p, dGet? producers t = some p ∧
        p.name ∈ names ∧ a = p.name ∧ b = q.name := by
  constructor
  · intro h
    rcases List.mem_filterMap.mp h with ⟨t, ht, he⟩
    replace he : (match dGet? producers t with
      | some p => if names.contains p.name then some (p.name, q.name) else none
      | none => none) = some (a, b) := he
    cases hg : dGet? producers t with
    | none => rw [hg] at he; simp at he
    | some p =>
      rw [hg] at he
      replace he : (if names.contains p.name then
          some (p.name, q.name) else none) = some (a, b) := he
      by_cases hc : (names.contains p.name) = true
      · rw [if_pos hc] at he
        have he' := (Prod.mk.injEq _ _ _ _).mp (by injection he)
        exact ⟨t, ht, p, hg, (contains_iff _ _).mp hc, he'.1.symm, he'.2.symm⟩
      · rw [if_neg hc] at he
        simp at he
  · rintro ⟨t, ht, p, hg, hn, ha, hb⟩
    subst ha hb
    apply List.mem_filterMap.mpr
    refine ⟨t, ht, ?_⟩
    show (match dGet? producers t with
      | some p => if names.contains p.name then some (p.name, q.name) else none
      | none => none) = some (p.name, q.name)
    rw [hg]
    show (if names.contains p.name then some (p.name, q.name) else none) = _
    rw [if_pos ((contains_iff _ _).mpr hn)]

theorem dUpdate_map_snd {f : Query → Query} :
    ∀ (d : List (String × Query)) (k : String) (v : Query),
      dUpdate (d.map (fun e => (e.1, f e.2))) k (f v) =
        (dUpdate d k v).map (fun e => (e.1, f e.2)) := by
  intro d
  induction d with
  | nil => intro k v; rfl
  | cons p rest ih =>
    intro k v
    by_cases hp : p.1 = k
    · simp [dUpdate, hp]
    · simp [dUpdate, hp, ih]

theorem dGet?_map_snd {f : Query → Query} :
    ∀ (d : List (String × Query)) (k : String),
      dGet? (d.map (fun e => (e.1, f e.2))) k = (dGet? d k).map f := by
  intro d
  induction d with
  | nil => intro k; rfl
  | cons p rest ih =>
    intro k
    by_cases hp : p.1 = k
    · simp [dGet?, hp]
    · simp [dGet?, hp, ih]

theorem foldl_dUpdate_map {f : Query → Query} (q : Query) :
    ∀ (outs : List String) (tc0 : List (String × Query)),
      outs.foldl (fun tc out => dUpdate tc out (f q))
          (tc0.map (fun e => (e.1, f e.2))) =
        (outs.foldl (fun tc out => dUpdate tc out q) tc0).map
          (fun e => (e.1, f e.2)) := by
  intro outs
  induction outs with
  | nil => intro tc0; rfl
  | cons o os ih =>
    intro tc0
    show os.foldl _ (dUpdate (tc0.map _) o (f q)) = _
    rw [dUpdate_map_snd, ih]
    rfl

theorem tableCreators_restrict (producers : List (String × Query))
    (names : List String) :
    ∀ qs : List Query,
      tableCreators (qs.map (restrictDeps producers names)) =
        (tableCreators qs).map (fun e => (e.1, restrictDeps producers names e.2)) := by
  have haux : ∀ (qs : List Query) (tc0 : List (String × Query)),
      (qs.map (restrictDeps producers names)).foldl (fun tc q =>
          if hasCREATE q then q.outputs.foldl (fun tc out => dUpdate tc out q) tc
          else tc) (tc0.map (fun e => (e.1, restrictDeps producers names e.2))) =
        (qs.foldl (fun tc q =>
          if hasCREATE q then q.outputs.foldl (fun tc out => dUpdate tc out q) tc
          else tc) tc0).map (fun e => (e.1, restrictDeps producers names e.2)) := by
    intro qs
    induction qs with
    | nil => intro tc0; rfl
    | cons q rest ih =>
      intro tc0
      have hstep : (if hasCREATE (restrictDeps producers names q) = true then
            (restrictDeps producers names q).outputs.foldl
              (fun tc out => dUpdate tc out (restrictDeps producers names q))
              (tc0.map (fun e => (e.1, restrictDeps producers names e.2)))
          else (tc0.map (fun e => (e.1, restrictDeps producers names e.2)))) =
          ((if hasCREATE q = true then
            q.outputs.foldl (fun tc out => dUpdate tc out q) tc0 else tc0).map
            (fun e => (e.1, restrictDeps producers names e.2))) := by
        show (if hasCREATE q = true then
            q.outputs.foldl
              (fun tc out => dUpdate tc out (restrictDeps producers names q))
              (tc0.map (fun e => (e.1, restrictDeps producers names e.2)))
          else (tc0.map (fun e => (e.1, restrictDeps producers names e.2)))) = _
        by_cases hc : hasCREATE q = true
        · rw [if_pos hc, if_pos hc]
          exact foldl_dUpdate_map q q.outputs tc0
        · rw [if_neg hc, if_neg hc]
      exact (congrArg (fun d => (rest.map (restrictDeps producers names)).foldl
          (fun tc q => if hasCREATE q then
            q.outputs.foldl (fun tc out => dUpdate tc out q) tc else tc) d)
        hstep).trans (ih (if hasCREATE q = true then
          q.outputs.foldl (fun tc out => dUpdate tc out q) tc0 else tc0))
  intro qs
  have := haux qs []
  simpa [tableCreators] using this

theorem insEdges_restrict (producers : List (String × Query)) (names : List String)
    (qs : List Query) (q : Query) :
    insertPrecedenceEdgesFor (tableCreators (qs.map (restrictDeps producers names)))
        (restrictDeps producers names q) =
      insertPrecedenceEdgesFor (tableCreators qs) q := by
  rw [tableCreators_restrict]
  have hins : hasINSERT (restrictDeps producers names q) = hasINSERT q := rfl
  rw [insertPrecedenceEdgesFor, insertPrecedenceEdgesFor, hins]
  by_cases hi : hasINSERT q = true
  · rw [if_pos hi, if_pos hi]
    have houts : (restrictDeps producers names q).outputs = q.outputs := rfl
    rw [houts]
    apply List.filterMap_congr
    intro out _
    rw [dGet?_map_snd]
    cases dGet? (tableCreators qs) out with
    | none => rfl
    | some c => rfl
  · rw [if_neg hi, if_neg hi]

theorem filterMap_filter_none {α β : Type} (g : α → Option β) (p : α → Bool)
    (h : ∀ a, p a = false → g a = none) :
    ∀ l : List α, (l.filter p).filterMap g = l.filterMap g := by
  intro l
  induction l with
  | nil => rfl
  | cons x xs ih =>
    rw [List.filter_cons]
    by_cases hp : p x = true
    · rw [if_pos hp, List.filterMap_cons, List.filterMap_cons, ih]
    · rw [if_neg hp, List.filterMap_cons, ih]
      have hgx : g x = none := h x (by simpa using hp)
      rw [hgx]

theorem depEdges_restrict (producers : List (String × Query)) (names : List String)
    (q : Query) :
    depEdgesFor producers names (restrictDeps producers names q) =
      depEdgesFor producers names q := by
  show (q.dependencies.filter (fun t =>
      match dGet? producers t with
      | some p => names.contains p.name
      | none => false)).filterMap (fun dep =>
        match dGet? producers dep with
        | some p => if names.contains p.name then some (p.name, q.name) else none
        | none => none) =
    q.dependencies.filterMap (fun dep =>
      match dGet? producers dep with
      | some p => if names.contains p.name then some (p.name, q.name) else none
      | none => none)
  apply filterMap_filter_none
  intro t hf
  cases hg : dGet? producers t with
  | none => rfl
  | some p =>
    rw [hg] at hf
    replace hf : names.contains p.name = false := hf
    show (if names.contains p.name then some (p.name, q.name) else none) = none
    rw [if_neg (by rw [hf]; exact Bool.false_ne_true)]

theorem localEdges_restrict (producers : List (String × Query)) (qs : List Query) :
    localEdges (qs.map (restrictDeps producers (qs.map (·.name)))) producers =
      localEdges qs producers := by
  simp only [localEdges]
  have hnames : (qs.map (restrictDeps producers (qs.map (·.name)))).map (·.name) =
      qs.map (·.name) := by
    rw [List.map_map]
    rfl
  rw [hnames, List.flatMap_map]
  apply fm_congr
  intro q hq
  rw [insEdges_restrict producers (qs.map (·.name)) qs q,
    depEdges_restrict producers (qs.map (·.name)) q]

theorem isEmpty_map {α β : Type} (f : α → β) (l : List α) :
    (l.map f).isEmpty = l.isEmpty := by
  cases l <;> rfl

theorem kahnLoop_proj (edges : List (String × String)) (f : Query → Query)
    (hf : ∀ q, (f q).name = q.name) :
    ∀ (fuel : Nat) (rem : List Query) (degs : List (String × Int)),
      projBatches (kahnLoop edges fuel (rem.map f) degs) =
        projBatches (kahnLoop edges fuel rem degs) := by
  have hmapname : ∀ l : List Query, (l.map f).map (fun x => x.name) =
      l.map (fun x => x.name) := by
    intro l
    rw [List.map_map]
    apply List.map_congr_left
    intro q _
    exact hf q
  have hmsg : ∀ l : List Query, circularMsg (l.map f) = circularMsg l := by
    intro l
    show "Circular dependency detected among queries in block: " ++
        pyJoin ", " ((l.map f).map (·.name)) ++ ". Check your SQL dependencies." = _
    rw [hmapname]
    rfl
  have hready : ∀ (degs : List (String × Int)) (l : List Query),
      readyOf degs (l.map f) = (readyOf degs l).map f := by
    intro degs l
    show (l.map f).filter _ = _
    rw [List.filter_map]
    congr 1
    apply List.filter_congr
    intro q _
    show (lookupInt degs (f q).name == 0) = (lookupInt degs q.name == 0)
    rw [hf q]
  have hremove : ∀ (ns : List String) (l : List Query),
      removeReady ns (l.map f) = (removeReady ns l).map f := by
    intro ns l
    show (l.map f).filter _ = _
    rw [List.filter_map]
    congr 1
    apply List.filter_congr
    intro q _
    show (!(ns.contains (f q).name)) = (!(ns.contains q.name))
    rw [hf q]
  intro fuel
  induction fuel with
  | zero =>
    intro rem degs
    cases rem with
    | nil => rfl
    | cons q rest =>
      show projBatches (.error (circularMsg (f q :: rest.map f))) =
        projBatches (.error (circularMsg (q :: rest)))
      rw [show (f q :: rest.map f) = (q :: rest).map f from rfl, hmsg]
  | succ fuel ih =>
    intro rem degs
    cases rem with
    | nil => rfl
    | cons q rest =>
      rw [show kahnLoop edges (fuel + 1) (q :: rest) degs =
          (if (readyOf degs (q :: rest)).isEmpty
           then .error (circularMsg (q :: rest))
           else
             match kahnLoop edges fuel
                 (removeReady ((readyOf degs (q :: rest)).map (·.name)) (q :: rest))
                 (decEdges edges ((readyOf degs (q :: rest)).map (·.name)) degs) with
             | .error e => .error e
             | .ok bs => .ok (⟨readyOf degs (q :: rest)⟩ :: bs)) from rfl]
      rw [show kahnLoop edges (fuel + 1) ((q :: rest).map f) degs =
          (if (readyOf degs ((q :: rest).map f)).isEmpty
           then .error (circularMsg ((q :: rest).map f))
           else
             match kahnLoop edges fuel
                 (removeReady ((readyOf degs ((q :: rest).map f)).map (·.name))
                   ((q :: rest).map f))
                 (decEdges edges
                   ((readyOf degs ((q :: rest).map f)).map (·.name)) degs) with
             | .error e => .error e
             | .ok bs => .ok (⟨readyOf degs ((q :: rest).map f)⟩ :: bs)) from rfl]
      rw [hready degs (q :: rest), isEmpty_map, hmsg, hmapname (readyOf degs (q :: rest)),
        hremove ((readyOf degs (q :: rest)).map (fun x => x.name)) (q :: rest)]
      by_cases hr : (readyOf degs (q :: rest)).isEmpty = true
      · rw [if_pos hr, if_pos hr]
      · rw [if_neg hr, if_neg hr]
        have hih := ih (removeReady ((readyOf degs (q :: rest)).map (fun x => x.name))
            (q :: rest))
          (decEdges edges ((readyOf degs (q :: rest)).map (fun x => x.name)) degs)
        cases hk : kahnLoop edges fuel
            (removeReady ((readyOf degs (q :: rest)).map (fun x => x.name)) (q :: rest))
            (decEdges edges ((readyOf degs (q :: rest)).map (fun x => x.name)) degs) with
        | error e =>
          rw [hk] at hih
          have : kahnLoop edges fuel
              ((removeReady ((readyOf degs (q :: rest)).map (fun x => x.name))
                (q :: rest)).map f)
              (decEdges edges ((readyOf degs (q :: rest)).map (fun x => x.name)) degs)
              = .error e := by
            apply projBatches_error.mp
            rw [hih]
            rfl
          rw [this]
        | ok bs =>
          rw [hk] at hih
          cases hk2 : kahnLoop edges fuel
              ((removeReady ((readyOf degs (q :: rest)).map (fun x => x.name))
                (q :: rest)).map f)
              (decEdges edges ((readyOf degs (q :: rest)).map (fun x => x.name)) degs) with
          | error e =>
            rw [hk2] at hih
            exact absurd hih.symm (by simp [projBatches, Except.map])
          | ok bs2 =>
            rw [hk2] at hih
            simp only [projBatches, Except.map] at hih ⊢
            simp only [List.map_cons]
            have hbatch : ((Batch.mk ((readyOf degs (q :: rest)).map f)).queries.map
                (fun q => q.name)) =
                ((Batch.mk (readyOf degs (q :: rest))).queries.map (fun q => q.name)) :=
              hmapname (readyOf degs (q :: rest))
            simp at hih
            rw [hbatch, hih]

theorem create_batches_restrict (qs : List Query) (producers : List (String × Query)) :
    projBatches (create_parallel_batches_for_block
        (qs.map (restrictDeps producers (qs.map (·.name)))) producers) =
      projBatches (create_parallel_batches_for_block qs producers) := by
  show projBatches (kahnLoop
      (localEdges (qs.map (restrictDeps producers (qs.map (·.name)))) producers)
      (qs.map (restrictDeps producers (qs.map (·.name)))).length
      (qs.map (restrictDeps producers (qs.map (·.name))))
      (initDegs (qs.map (restrictDeps producers (qs.map (·.name))))
        (localEdges (qs.map (restrictDeps producers (qs.map (·.name)))) producers))) =
    projBatches (kahnLoop (localEdges qs producers) qs.length qs
      (initDegs qs (localEdges qs producers)))
  rw [localEdges_restrict, List.length_map]
  have hdegs : initDegs (qs.map (restrictDeps producers (qs.map (·.name))))
      (localEdges qs producers) = initDegs qs (localEdges qs producers) := by
    show (localEdges qs producers).foldl _
        ((qs.map (restrictDeps producers (qs.map (·.name)))).map
          (fun q => (q.name, (0 : Int)))) = _
    rw [List.map_map]
    rfl
  rw [hdegs]
  exact kahnLoop_proj (localEdges qs producers)
    (restrictDeps producers (qs.map (·.name))) (fun q => rfl) qs.length qs
    (initDegs qs (localEdges qs producers))

/-- C8: a dependency contributes an edge exactly when its retained producer
belongs to the same block (first conjunct); dependencies whose retained
producer lies in another block, or that no query produces, contribute no
edge and do not affect batching: dropping them leaves the computed batches
(projected to query names) and any raised error unchanged (second
conjunct). -/
theorem claim_C8_local_edges (qs : List Query) (producers : List (String × Query)) :
    (∀ (q : Query) (a b : String), q ∈ qs →
      ((a, b) ∈ depEdgesFor producers (qs.map (·.name)) q ↔
        ∃ t ∈ q.dependencies, ∃ p, dGet? producers t = some p ∧
          p.name ∈ qs.map (·.name) ∧ a = p.name ∧ b = q.name)) ∧
    projBatches (create_parallel_batches_for_block
        (qs.map (restrictDeps producers (qs.map (·.name)))) producers) =
      projBatches (create_parallel_batches_for_block qs producers) :=
  ⟨fun q a b _ => depEdgesFor_mem producers (qs.map (·.name)) q a b,
    create_batches_restrict qs producers⟩

/-! ### Claim C9: extraction never raises; failures absorbed locally -/

/-- C9: dependency extraction is a total function of the (external) parse
outcome — it always returns a pair of sets; on any internal parse failure it
returns two empty sets; and `_parse_sql` always hands the orchestrator a
plain `Query`, with empty dependency/output sets when parsing failed, so
extraction failures never surface to the caller as errors. -/
theorem claim_C9_extraction_never_raises :
    (∀ e : String, extract_dependencies_and_outputs (.error e) = ([], [])) ∧
    (∀ (name sql block_name code_name : String)
      (parsed : Except String (List (Option PStmt))),
      parse_sql name sql block_name code_name parsed =
        ⟨name, sql, (extract_dependencies_and_outputs parsed).1,
          (extract_dependencies_and_outputs parsed).2, block_name, code_name⟩) ∧
    (∀ name sql block_name code_name e : String,
      parse_sql name sql block_name code_name (.error e) =
        ⟨name, sql, [], [], block_name, code_name⟩) :=
  ⟨fun _ => rfl, fun _ _ _ _ _ => rfl, fun _ _ _ _ _ => rfl⟩

/-! ### Claim C10: derived query names -/

/-- C10: a code unit with exactly one script yields a query named after the
code; with several scripts, the query for the script at 0-based index `i` is
named `<codeName>_<i>`. -/
theorem claim_C10_query_naming (code : Code) (i : Nat) :
    (code.script.length = 1 → get_query_name code i = code.name) ∧
    (code.script.length > 1 →
      get_query_name code i = code.name ++ "_" ++ toString i) := by
  constructor
  · intro h
    rw [get_query_name, if_neg (by omega)]
  · intro h
    rw [get_query_name, if_pos h]

/-- Witness for C10 at one-script and two-script code units. -/
theorem claim_C10_query_naming_witness :
    get_query_name ⟨"code", ["s0"]⟩ 0 = "code" ∧
      get_query_name ⟨"code", ["s0", "s1"]⟩ 1 = "code" ++ "_" ++ toString 1 :=
  ⟨(claim_C10_query_naming ⟨"code", ["s0"]⟩ 0).1 (by decide),
    (claim_C10_query_naming ⟨"code", ["s0", "s1"]⟩ 1).2 (by decide)⟩

/-! ### Claim C3: the dead cancellation path of the batch executor -/

/-- C3: the `as_completed` loop drains every future before `failed_queries`
is inspected, so the guard `len(completed_futures) < len(future_to_query)`
never holds on a real completion order (a permutation of the batch): no
future is ever cancelled, and every unit of the batch is started and runs to
completion — the claimed fail-fast cancellation of not-yet-started units
never happens. -/
theorem claim_C3_no_cancellation (fails : Query → Option String)
    (batchQueries completionOrder : List Query)
    (hperm : completionOrder.Perm batchQueries) :
    (execute_batch_parallel_pool fails batchQueries completionOrder).cancelledCount
        = 0 ∧
      (execute_batch_parallel_pool fails batchQueries completionOrder).ran =
        completionOrder ∧
      ∀ q ∈ batchQueries,
        q ∈ (execute_batch_parallel_pool fails batchQueries completionOrder).ran := by
  have hlen : completionOrder.length = batchQueries.length := hperm.length_eq
  have hunfold : execute_batch_parallel_pool fails batchQueries completionOrder =
      (if (completionOrder.filterMap
          (fun q => (fails q).map (fun e => q.name ++ ": " ++ e))).isEmpty
       then ⟨completionOrder, 0, none⟩
       else ⟨completionOrder,
          (if completionOrder.length < batchQueries.length then
            cancelRemainingCount batchQueries completionOrder else 0),
          some (aggMsg (completionOrder.filter
            (fun q => (fails q).isNone)).length
            (completionOrder.filterMap
              (fun q => (fails q).map (fun e => q.name ++ ": " ++ e))))⟩) := rfl
  by_cases hfe : (completionOrder.filterMap
      (fun q => (fails q).map (fun e => q.name ++ ": " ++ e))).isEmpty = true
  · rw [hunfold, if_pos hfe]
    exact ⟨rfl, rfl, fun q hq => hperm.mem_iff.mpr hq⟩
  · rw [hunfold, if_neg hfe, if_neg (by omega)]
    exact ⟨rfl, rfl, fun q hq => hperm.mem_iff.mpr hq⟩

/-- The per-query failure oracle used in concrete runs: query `a` fails with
engine error `boom`. -/
def exF : Query → Option String :=
  fun q => if q.name = "a" then some "boom" else none

/-- Witness for C3 at a concrete three-query batch with one failure. -/
theorem claim_C3_no_cancellation_witness :
    (execute_batch_parallel_pool exF [ceA, ceB, ceC] [ceA, ceB, ceC]).cancelledCount
        = 0 ∧
      (execute_batch_parallel_pool exF [ceA, ceB, ceC] [ceA, ceB, ceC]).ran =
        [ceA, ceB, ceC] ∧
      ∀ q ∈ [ceA, ceB, ceC],
        q ∈ (execute_batch_parallel_pool exF [ceA, ceB, ceC] [ceA, ceB, ceC]).ran :=
  claim_C3_no_cancellation exF [ceA, ceB, ceC] [ceA, ceB, ceC] (List.Perm.refl _)

/-! ### Claim C7: aggregated failure, no later batch or block started -/

theorem strContains_of_data (s pat : String) (l r : List Char)
    (h : s.data = l ++ pat.data ++ r) : strContains s pat = true := by
  show charsContain pat.data s.data = true
  rw [h, List.append_assoc]
  exact charsContain_append_left l (charsContain_self_append _ _)

theorem pyJoin_split (sep : String) :
    ∀ {l : List String} {a : String}, a ∈ l →
      ∃ x y : List Char, (pyJoin sep l).data = x ++ a.data ++ y := by
  intro l
  induction l with
  | nil => intro a h; simp at h
  | cons b rest ih =>
    intro a h
    cases rest with
    | nil =>
      simp at h
      subst h
      exact ⟨[], [], by simp [pyJoin]⟩
    | cons c cs =>
      rcases List.mem_cons.mp h with h1 | h2
      · subst h1
        refine ⟨[], (sep ++ pyJoin sep (c :: cs)).data, ?_⟩
        show (a ++ sep ++ pyJoin sep (c :: cs)).data = _
        simp [strData_append]
      · rcases ih h2 with ⟨x, y, hxy⟩
        refine ⟨(b ++ sep).data ++ x, y, ?_⟩
        show (b ++ sep ++ pyJoin sep (c :: cs)).data = _
        rw [strData_append, hxy, strData_append]
        simp [List.append_assoc]

theorem runSeq_spec (fails : Query → Option String) :
    ∀ (qs ran : List Query) (m : String), runSeq fails qs = (ran, some m) →
      ∃ q e, fails q = some e ∧
        m = "Query '" ++ q.name ++ "' failed: " ++ e ∧
        ∀ q' ∈ ran, ∀ e', fails q' = some e' → q' = q ∧ e' = e := by
  intro qs
  induction qs with
  | nil => intro ran m h; simp [runSeq] at h
  | cons q rest ih =>
    intro ran m h
    rw [show runSeq fails (q :: rest) =
        (match fails q with
        | some e => ([q], some ("Query '" ++ q.name ++ "' failed: " ++ e))
        | none => (q :: (runSeq fails rest).1, (runSeq fails rest).2)) from rfl] at h
    cases hfq : fails q with
    | some e =>
      rw [hfq] at h
      have hran : ran = [q] := by
        injection h with h1 h2
        exact h1.symm
      have hm : m = "Query '" ++ q.name ++ "' failed: " ++ e := by
        injection h with h1 h2
        injection h2 with h3
        exact h3.symm
      subst hran hm
      refine ⟨q, e, hfq, rfl, ?_⟩
      intro q' hq' e' hfq'
      have hq'q : q' = q := by simpa using hq'
      subst hq'q
      rw [hfq] at hfq'
      refine ⟨rfl, ?_⟩
      injection hfq' with h4
      exact h4.symm
    | none =>
      rw [hfq] at h
      rw [Prod.mk.injEq] at h
      obtain ⟨hran0, htail⟩ := h
      have hran : ran = q :: (runSeq fails rest).1 := hran0.symm
      have hpair : runSeq fails rest = ((runSeq fails rest).1, some m) := by
        rw [← htail]
      rcases ih (runSeq fails rest).1 m hpair with ⟨q0, e0, hf0, hm0, hall⟩
      refine ⟨q0, e0, hf0, hm0, ?_⟩
      intro q' hq' e' hfq'
      subst hran
      rcases List.mem_cons.mp hq' with h1 | h2
      · subst h1
        rw [hfq] at hfq'
        exact absurd hfq' (by simp)
      · exact hall q' h2 e' hfq'

theorem singleMsg_names (q : Query) (e : String) :
    strContains ("Query '" ++ q.name ++ "' failed: " ++ e) q.name = true ∧
      strContains ("Query '" ++ q.name ++ "' failed: " ++ e) e = true := by
  constructor
  · apply strContains_of_data _ _ ("Query '".data) (("' failed: " ++ e).data)
    simp [strData_append]
  · apply strContains_of_data _ _ (("Query '" ++ q.name ++ "' failed: ").data) []
    simp [strData_append]

theorem aggMsg_names {entries : List String} (n : Nat) {q : Query} {e : String}
    (hentry : (q.name ++ ": " ++ e) ∈ entries) :
    strContains (aggMsg n entries) q.name = true ∧
      strContains (aggMsg n entries) e = true := by
  rcases pyJoin_split "\n  - " hentry with ⟨x, y, hxy⟩
  have hentrydata : (q.name ++ ": " ++ e).data =
      q.name.data ++ (": ".data ++ e.data) := by
    simp [strData_append]
  rw [hentrydata] at hxy
  have hmdata : (aggMsg n entries).data =
      ("Query execution failed after " ++ toString n ++ " successful quer" ++
        (if n == 1 then "y" else "ies") ++ ":\n  - ").data ++
        (pyJoin "\n  - " entries).data := by
    show (("Query execution failed after " ++ toString n ++ " successful quer" ++
        (if n == 1 then "y" else "ies") ++ ":\n  - ") ++
        pyJoin "\n  - " entries).data = _
    rw [strData_append]
  constructor
  · apply strContains_of_data _ _
      (("Query execution failed after " ++ toString n ++ " successful quer" ++
        (if n == 1 then "y" else "ies") ++ ":\n  - ").data ++ x)
      (": ".data ++ e.data ++ y)
    rw [hmdata, hxy]
    simp [List.append_assoc]
  · apply strContains_of_data _ _
      (("Query execution failed after " ++ toString n ++ " successful quer" ++
        (if n == 1 then "y" else "ies") ++ ":\n  - ").data ++ x ++
        q.name.data ++ ": ".data) y
    rw [hmdata, hxy]
    simp [List.append_assoc]

theorem runBatch_err_names (mw : Nat) (fails : Query → Option String)
    (co : List Query) (b : Batch) {ran : List Query} {m : String}
    (h : runBatch mw fails co b = (ran, some m)) :
    ∀ q ∈ ran, ∀ e, fails q = some e →
      strContains m q.name = true ∧ strContains m e = true := by
  rw [show runBatch mw fails co b =
      (if b.queries.length == 1 then
        match b.queries with
        | [] => ([], none)
        | q :: _ =>
          match fails q with
          | some e => ([q], some ("Query '" ++ q.name ++ "' failed: " ++ e))
          | none => ([q], none)
      else if (min mw b.queries.length) == 1 then runSeq fails b.queries
      else ((execute_batch_parallel_pool fails b.queries co).ran,
        (execute_batch_parallel_pool fails b.queries co).errMsg)) from rfl] at h
  by_cases h1 : (b.queries.length == 1) = true
  · rw [if_pos h1] at h
    cases hq : b.queries with
    | nil => rw [hq] at h; simp at h
    | cons q0 qrest =>
      rw [hq] at h
      replace h : (match fails q0 with
        | some e => ([q0], some ("Query '" ++ q0.name ++ "' failed: " ++ e))
        | none => ([q0], none)) = (ran, some m) := h
      cases hfq : fails q0 with
      | none => rw [hfq] at h; simp at h
      | some e0 =>
        rw [hfq] at h
        have hran : ran = [q0] := by
          injection h with ha hb
          exact ha.symm
        have hm : m = "Query '" ++ q0.name ++ "' failed: " ++ e0 := by
          injection h with ha hb
          injection hb with hc
          exact hc.symm
        subst hran hm
        intro q hqm e hfe
        have hqq : q = q0 := by simpa using hqm
        rw [hqq] at hfe
        rw [hfq] at hfe
        have hee : e = e0 := by injection hfe with hh; exact hh.symm
        rw [hqq, hee]
        exact singleMsg_names q0 e0
  · rw [if_neg h1] at h
    by_cases h2 : ((min mw b.queries.length) == 1) = true
    · rw [if_pos h2] at h
      rcases runSeq_spec fails b.queries ran m h with ⟨q0, e0, hf0, hm0, hall⟩
      intro q hqm e hfe
      rcases hall q hqm e hfe with ⟨hq, he⟩
      rw [hm0, hq, he]
      exact singleMsg_names q0 e0
    · rw [if_neg h2] at h
      have hpool : execute_batch_parallel_pool fails b.queries co =
          (if (co.filterMap
              (fun q => (fails q).map (fun e => q.name ++ ": " ++ e))).isEmpty
           then ⟨co, 0, none⟩
           else ⟨co,
              (if co.length < b.queries.length then
                cancelRemainingCount b.queries co else 0),
              some (aggMsg (co.filter (fun q => (fails q).isNone)).length
                (co.filterMap
                  (fun q => (fails q).map (fun e => q.name ++ ": " ++ e))))⟩) := rfl
      by_cases hfe : (co.filterMap
          (fun q => (fails q).map (fun e => q.name ++ ": " ++ e))).isEmpty = true
      · rw [hpool, if_pos hfe] at h
        simp at h
      · rw [hpool, if_neg hfe] at h
        have hran : ran = co := by
          injection h with ha hb
          exact ha.symm
        have hm : m = aggMsg (co.filter (fun q => (fails q).isNone)).length
            (co.filterMap (fun q => (fails q).map (fun e => q.name ++ ": " ++ e))) := by
          injection h with ha hb
          injection hb with hc
          exact hc.symm
        subst hran hm
        intro q hqm e hfe2
        apply aggMsg_names
        apply List.mem_filterMap.mpr
        refine ⟨q, hqm, ?_⟩
        rw [hfe2]
        rfl

theorem runBatches_entries (mw : Nat) (fails : Query → Option String)
    (schedB : Nat → List Query) (i : Nat) :
    ∀ (bs : List Batch) (j : Nat),
      ∀ t ∈ (runBatches mw fails schedB i j bs).1, t.blockIdx = i := by
  intro bs
  induction bs with
  | nil => intro j t ht; simp [runBatches] at ht
  | cons b rest ih =>
    intro j t ht
    rw [show runBatches mw fails schedB i j (b :: rest) =
        (match (runBatch mw fails (schedB j) b).2 with
        | some m => ([⟨i, j, (runBatch mw fails (schedB j) b).1, some m⟩], some m)
        | none =>
          (⟨i, j, (runBatch mw fails (schedB j) b).1, none⟩ ::
            (runBatches mw fails schedB i (j + 1) rest).1,
            (runBatches mw fails schedB i (j + 1) rest).2)) from rfl] at ht
    cases hr : (runBatch mw fails (schedB j) b).2 with
    | some m =>
      rw [hr] at ht
      have : t = ⟨i, j, (runBatch mw fails (schedB j) b).1, some m⟩ := by
        simpa using ht
      rw [this]
    | none =>
      rw [hr] at ht
      rcases List.mem_cons.mp ht with h1 | h2
      · rw [h1]
      · exact ih (j + 1) t h2

theorem runBatches_err (mw : Nat) (fails : Query → Option String)
    (schedB : Nat → List Query) (i : Nat) :
    ∀ (bs : List Batch) (j : Nat) (tr : List TraceEntry) (m : String),
      runBatches mw fails schedB i j bs = (tr, some m) →
      ∃ jf ran, j ≤ jf ∧
        tr.getLast? = some ⟨i, jf, ran, some m⟩ ∧
        (∀ t ∈ tr, t.blockIdx = i ∧ t.batchIdx ≤ jf) ∧
        (∀ q ∈ ran, ∀ e, fails q = some e →
          strContains m q.name = true ∧ strContains m e = true) := by
  intro bs
  induction bs with
  | nil => intro j tr m h; simp [runBatches] at h
  | cons b rest ih =>
    intro j tr m h
    rw [show runBatches mw fails schedB i j (b :: rest) =
        (match (runBatch mw fails (schedB j) b).2 with
        | some m => ([⟨i, j, (runBatch mw fails (schedB j) b).1, some m⟩], some m)
        | none =>
          (⟨i, j, (runBatch mw fails (schedB j) b).1, none⟩ ::
            (runBatches mw fails schedB i (j + 1) rest).1,
            (runBatches mw fails schedB i (j + 1) rest).2)) from rfl] at h
    cases hr : (runBatch mw fails (schedB j) b).2 with
    | some m0 =>
      rw [hr] at h
      rw [Prod.mk.injEq] at h
      obtain ⟨htr, hm⟩ := h
      have hm' : m0 = m := by injection hm
      subst hm'
      refine ⟨j, (runBatch mw fails (schedB j) b).1, le_refl j, ?_, ?_, ?_⟩
      · rw [← htr]
        rfl
      · intro t ht
        rw [← htr] at ht
        have : t = ⟨i, j, (runBatch mw fails (schedB j) b).1, some m0⟩ := by
          simpa using ht
        rw [this]
        exact ⟨rfl, le_refl j⟩
      · have hpair : runBatch mw fails (schedB j) b =
            ((runBatch mw fails (schedB j) b).1, some m0) := by
          rw [← hr]
        exact runBatch_err_names mw fails (schedB j) b hpair
    | none =>
      rw [hr] at h
      rw [Prod.mk.injEq] at h
      obtain ⟨htr, hm⟩ := h
      have hpair : runBatches mw fails schedB i (j + 1) rest =
          ((runBatches mw fails schedB i (j + 1) rest).1, some m) := by
        rw [← hm]
      rcases ih (j + 1) _ m hpair with ⟨jf, ran, hjf, hlast, hpos, hnames⟩
      refine ⟨jf, ran, by omega, ?_, ?_, hnames⟩
      · rw [← htr]
        rw [show (⟨i, j, (runBatch mw fails (schedB j) b).1, none⟩ ::
            (runBatches mw fails schedB i (j + 1) rest).1 : List TraceEntry) =
          [⟨i, j, (runBatch mw fails (schedB j) b).1, none⟩] ++
            (runBatches mw fails schedB i (j + 1) rest).1 from rfl,
          List.getLast?_append, hlast]
        rfl
      · intro t ht
        rw [← htr] at ht
        rcases List.mem_cons.mp ht with h1 | h2
        · rw [h1]
          refine ⟨rfl, ?_⟩
          show j ≤ jf
          omega
        · have := hpos t h2
          exact ⟨this.1, this.2⟩

theorem runBlocks_err (mw : Nat) (fails : Query → Option String)
    (sched : Nat → Nat → List Query) :
    ∀ (blocks : List Block) (i : Nat) (tr : List TraceEntry) (m : String),
      runBlocks mw fails sched i blocks = (tr, some m) →
      ∃ bi jf ran, i ≤ bi ∧
        tr.getLast? = some ⟨bi, jf, ran, some m⟩ ∧
        (∀ t ∈ tr, lexLE (t.blockIdx, t.batchIdx) (bi, jf)) ∧
        (∀ q ∈ ran, ∀ e, fails q = some e →
          strContains m q.name = true ∧ strContains m e = true) := by
  intro blocks
  induction blocks with
  | nil => intro i tr m h; simp [runBlocks] at h
  | cons blk rest ih =>
    intro i tr m h
    rw [show runBlocks mw fails sched i (blk :: rest) =
        (if blk.batches.isEmpty then runBlocks mw fails sched (i + 1) rest
         else
           match (runBatches mw fails (sched i) i 0 blk.batches).2 with
           | some m => ((runBatches mw fails (sched i) i 0 blk.batches).1, some m)
           | none =>
             ((runBatches mw fails (sched i) i 0 blk.batches).1 ++
               (runBlocks mw fails sched (i + 1) rest).1,
               (runBlocks mw fails sched (i + 1) rest).2)) from rfl] at h
    by_cases hb : blk.batches.isEmpty = true
    · rw [if_pos hb] at h
      rcases ih (i + 1) tr m h with ⟨bi, jf, ran, hbi, hrest⟩
      exact ⟨bi, jf, ran, by omega, hrest⟩
    · rw [if_neg hb] at h
      cases hr : (runBatches mw fails (sched i) i 0 blk.batches).2 with
      | some m0 =>
        rw [hr] at h
        rw [Prod.mk.injEq] at h
        obtain ⟨htr, hm⟩ := h
        have hm' : m0 = m := by injection hm
        subst hm'
        have hpair : runBatches mw fails (sched i) i 0 blk.batches =
            ((runBatches mw fails (sched i) i 0 blk.batches).1, some m0) := by
          rw [← hr]
        rcases runBatches_err mw fails (sched i) i blk.batches 0 _ m0 hpair
          with ⟨jf, ran, _, hlast, hpos, hnames⟩
        refine ⟨i, jf, ran, le_refl i, ?_, ?_, hnames⟩
        · rw [← htr]
          exact hlast
        · intro t ht
          rw [← htr] at ht
          have := hpos t ht
          exact Or.inr ⟨this.1, this.2⟩
      | none =>
        rw [hr] at h
        rw [Prod.mk.injEq] at h
        obtain ⟨htr, hm⟩ := h
        have hpair : runBlocks mw fails sched (i + 1) rest =
            ((runBlocks mw fails sched (i + 1) rest).1, some m) := by
          rw [← hm]
        rcases ih (i + 1) _ m hpair with ⟨bi, jf, ran, hbi, hlast, hlex, hnames⟩
        refine ⟨bi, jf, ran, by omega, ?_, ?_, hnames⟩
        · rw [← htr, List.getLast?_append, hlast]
          rfl
        · intro t ht
          rw [← htr] at ht
          rcases List.mem_append.mp ht with h1 | h2
          · have := runBatches_entries mw fails (sched i) i blk.batches 0 t h1
            exact Or.inl (by omega)
          · exact hlex t h2

/-- C7: whenever `execute` raises, the failure is a single aggregated
message that names every started-and-failed query of the failing batch
together with its underlying engine error text, and the set of started
batches is bounded by the failing batch's position: no batch of a later
position and no later block is ever started. -/
theorem claim_C7_aggregated_failfast (mw : Nat) (fails : Query → Option String)
    (sched : Nat → Nat → List Query) (plan : ExecutionPlan)
    (tr : List TraceEntry) (m : String)
    (hrun : executePlan mw fails sched plan = (tr, some m)) :
    ∃ bi jf ran, tr.getLast? = some ⟨bi, jf, ran, some m⟩ ∧
      (∀ t ∈ tr, lexLE (t.blockIdx, t.batchIdx) (bi, jf)) ∧
      (∀ q ∈ ran, ∀ e, fails q = some e →
        strContains m q.name = true ∧ strContains m e = true) := by
  rcases runBlocks_err mw fails sched plan.blocks 0 tr m hrun
    with ⟨bi, jf, ran, _, hlast, hlex, hnames⟩
  exact ⟨bi, jf, ran, hlast, hlex, hnames⟩

/-- The completion order used for the concrete run of `cePlan`. -/
def ceSched : Nat → Nat → List Query :=
  fun i _ => if i = 0 then [ceA, ceB] else [ceC]

/-- Witness for C7: running `cePlan` with `ceA` failing stops inside block 0,
batch 0, and the aggregated message names the failed query and its error. -/
theorem claim_C7_aggregated_failfast_witness :
    ∃ bi jf ran,
      ([⟨0, 0, [ceA, ceB],
        some ("Query execution failed after 1 successful query:\n  - a: boom")⟩]
          : List TraceEntry).getLast? = some ⟨bi, jf, ran,
        some ("Query execution failed after 1 successful query:\n  - a: boom")⟩ ∧
      (∀ t ∈ ([⟨0, 0, [ceA, ceB],
        some ("Query execution failed after 1 successful query:\n  - a: boom")⟩]
          : List TraceEntry), lexLE (t.blockIdx, t.batchIdx) (bi, jf)) ∧
      (∀ q ∈ ran, ∀ e, exF q = some e →
        strContains ("Query execution failed after 1 successful query:\n  - a: boom")
            q.name = true ∧
          strContains ("Query execution failed after 1 successful query:\n  - a: boom")
            e = true) :=
  claim_C7_aggregated_failfast 4 exF ceSched cePlan
    [⟨0, 0, [ceA, ceB],
      some ("Query execution failed after 1 successful query:\n  - a: boom")⟩]
    ("Query execution failed after 1 successful query:\n  - a: boom") rfl

end DuckTf
